import Mathlib

/-!
PDF Cutter: page selection and split planning.

A shallow embedding of the page-selection logic of `script.js` (class
`PDFCutter`): the range parser `expandRange`, the four split modes, the
page-order move `reorderPages` and the field validation `updatePageInputs`.

JavaScript values are embedded as follows.

* A Number is a `JSNumber`: `NaN`, the two infinities, or a finite integer.
  Every Number the embedded code handles is integer valued (it comes from
  `parseInt`, from an array length or from adding and subtracting such
  values).  Arithmetic rounds to the nearest double, ties to even, so that
  `i++` stops changing `i` from `2^53` on, exactly as in the source.
* A string is a `List Char` (a `String` where it is only built, never
  inspected).  The source only splits on ASCII separators and trims
  whitespace of the basic plane, for which code points and UTF-16 code units
  agree.
* A `for` loop whose bound is read from user text runs on fuel: `none` means
  that the loop is still running when the fuel is used up.  A loop over the
  pages of the document or over an array is a recursion over its items.
* A progress percentage `(i / n) * 100` is the exact fraction.
* The PDF library is outside the repository: a saved document is stood for
  by the list of source page indices copied into it.
-/

namespace PDFCutter

/-! ## Numbers -/

/-- A JavaScript Number with an integer value, an infinity, or `NaN`. -/
inductive JSNumber where
  | nan
  | negInf
  | fin (z : Int)
  | posInf
  deriving DecidableEq, Repr

/-- Round a natural number to the nearest double, ties to even (53 bits of
significand), without regard to the exponent range. -/
def roundNat (n : Nat) : Nat :=
  if n < 2 ^ 53 then n
  else
    let e := Nat.log2 n - 52
    let q := n / 2 ^ e
    let r := n % 2 ^ e
    let half := 2 ^ (e - 1)
    if r < half then q * 2 ^ e
    else if r = half ∧ q % 2 = 0 then q * 2 ^ e
    else (q + 1) * 2 ^ e

/-- The Number for a mathematical integer: rounded to a double, an infinity
when the rounded magnitude reaches `2^1024`. -/
def toNumber (z : Int) : JSNumber :=
  let m := roundNat z.natAbs
  if 1 <<< 1024 ≤ m then (if z < 0 then JSNumber.negInf else JSNumber.posInf)
  else JSNumber.fin (if z < 0 then -(m : Int) else (m : Int))

namespace JSNumber

/-- The comparison `x <= y` of JavaScript: false as soon as one side is `NaN`. -/
def le : JSNumber → JSNumber → Bool
  | nan, _ => false
  | _, nan => false
  | negInf, _ => true
  | _, posInf => true
  | fin a, fin b => decide (a ≤ b)
  | fin _, negInf => false
  | posInf, fin _ => false
  | posInf, negInf => false

/-- The comparison `x < y` of JavaScript: false as soon as one side is `NaN`. -/
def lt : JSNumber → JSNumber → Bool
  | nan, _ => false
  | _, nan => false
  | negInf, negInf => false
  | negInf, _ => true
  | posInf, _ => false
  | fin a, fin b => decide (a < b)
  | fin _, negInf => false
  | fin _, posInf => true

/-- Addition `x + y` of Numbers. -/
def add : JSNumber → JSNumber → JSNumber
  | nan, _ => nan
  | _, nan => nan
  | posInf, negInf => nan
  | negInf, posInf => nan
  | posInf, _ => posInf
  | _, posInf => posInf
  | negInf, _ => negInf
  | _, negInf => negInf
  | fin a, fin b => toNumber (a + b)

/-- Negation `-x` of a Number. -/
def neg : JSNumber → JSNumber
  | nan => nan
  | posInf => negInf
  | negInf => posInf
  | fin a => fin (-a)

/-- Subtraction `x - y` of Numbers. -/
def sub (x y : JSNumber) : JSNumber := add x (neg y)

end JSNumber

/-! ## Strings -/

/-- The characters that `trim` and `parseInt` skip: the WhiteSpace and
LineTerminator code points of ECMAScript. -/
def isWhiteSpace (c : Char) : Bool :=
  let n := c.toNat
  n == 9 || n == 10 || n == 11 || n == 12 || n == 13 || n == 32 || n == 160 ||
  n == 5760 || (8192 ≤ n && n ≤ 8202) || n == 8232 || n == 8233 || n == 8239 ||
  n == 8287 || n == 12288 || n == 65279

/-- The method `String.prototype.trim`. -/
def trim (s : List Char) : List Char :=
  ((s.dropWhile isWhiteSpace).reverse.dropWhile isWhiteSpace).reverse

/-- The method `String.prototype.split` for a one-character separator: the
pieces between the separators, a single empty piece for the empty string. -/
def split (sep : Char) : List Char → List (List Char)
  | [] => [[]]
  | c :: cs =>
    if c = sep then [] :: split sep cs
    else
      match split sep cs with
      | [] => [[c]]
      | p :: ps => (c :: p) :: ps

/-- The method `String.prototype.includes` for a one-character argument. -/
def includes (s : List Char) (c : Char) : Bool := s.contains c

/-- The value of a character as a digit, letters counting from ten. -/
def digitValue (c : Char) : Option Nat :=
  if 48 ≤ c.toNat ∧ c.toNat ≤ 57 then some (c.toNat - 48)
  else if 97 ≤ c.toNat ∧ c.toNat ≤ 122 then some (c.toNat - 87)
  else if 65 ≤ c.toNat ∧ c.toNat ≤ 90 then some (c.toNat - 55)
  else none

/-- The value of a character as a digit of the given radix, if it is one. -/
def radixDigit (radix : Nat) (c : Char) : Option Nat :=
  match digitValue c with
  | some d => if d < radix then some d else none
  | none => none

/-- The values of the longest run of radix digits a string starts with. -/
def takeDigits (radix : Nat) : List Char → List Nat
  | [] => []
  | c :: cs =>
    match radixDigit radix c with
    | some d => d :: takeDigits radix cs
    | none => []

/-- The integer written by a list of digit values, most significant first. -/
def digitsValue (radix : Nat) (ds : List Nat) : Nat :=
  ds.foldl (fun acc d => acc * radix + d) 0

/-- The function `parseInt` called with one argument: leading whitespace is
skipped, then an optional sign, then `0x` or `0X` selects radix 16 (radix 10
otherwise); the longest run of digits is read, and `NaN` is returned when it
is empty.  The integer read is converted to the nearest Number. -/
def parseInt (s : List Char) : JSNumber :=
  let s1 := s.dropWhile isWhiteSpace
  let negative := s1.head? == some '-'
  let s2 := if s1.head? == some '-' || s1.head? == some '+' then s1.tail else s1
  let hex := s2.take 2 == ['0', 'x'] || s2.take 2 == ['0', 'X']
  let s3 := if hex then s2.drop 2 else s2
  let radix := if hex then 16 else 10
  let ds := takeDigits radix s3
  if ds.isEmpty then JSNumber.nan
  else toNumber (if negative then -(digitsValue radix ds : Int) else (digitsValue radix ds : Int))

/-- A decimal numeral: a string of one or more of the digits `0` to `9`. -/
def isDecimal (s : List Char) : Prop :=
  s ≠ [] ∧ ∀ c ∈ s, 48 ≤ c.toNat ∧ c.toNat ≤ 57

/-- The number a decimal numeral writes. -/
def decimalValue (s : List Char) : Nat :=
  s.foldl (fun acc c => acc * 10 + (c.toNat - 48)) 0

/-! ## The range parser -/

/-- The body of the span loop of `expandRange`, and of its single-page branch:
`if (i >= 1 && i <= this.totalPages) pages.push(i - 1)`. -/
def pushPage (totalPages : Nat) (i : JSNumber) (pages : List Int) : List Int :=
  if JSNumber.le (JSNumber.fin 1) i && JSNumber.le i (JSNumber.fin totalPages) then
    match JSNumber.sub i (JSNumber.fin 1) with
    | JSNumber.fin z => pages ++ [z]
    | _ => pages
  else pages

/-- The loop `for (let i = start; i <= end; i++)` of `expandRange`, on fuel:
`none` when the loop has not ended after `fuel` rounds. -/
def spanLoop (totalPages : Nat) (e : JSNumber) : Nat → JSNumber → List Int → Option (List Int)
  | 0, i, pages => if JSNumber.le i e then none else some pages
  | fuel + 1, i, pages =>
    if JSNumber.le i e then
      spanLoop totalPages e fuel (JSNumber.add i (JSNumber.fin 1)) (pushPage totalPages i pages)
    else some pages

/-- One round of `parts.forEach` in `expandRange`: a token with a hyphen is a
span between the numbers before and after its first hyphen, any other token a
single page number. -/
def expandPart (totalPages fuel : Nat) (part : List Char) (pages : List Int) :
    Option (List Int) :=
  let part := trim part
  if includes part '-' then
    let nums := (split '-' part).map (fun n => parseInt (trim n))
    spanLoop totalPages (nums.getD 1 JSNumber.nan) fuel (nums.getD 0 JSNumber.nan) pages
  else some (pushPage totalPages (parseInt part) pages)

/-- The call `parts.forEach(...)` of `expandRange`. -/
def expandParts (totalPages fuel : Nat) : List (List Char) → List Int → Option (List Int)
  | [], pages => some pages
  | part :: rest, pages =>
    match expandPart totalPages fuel part pages with
    | some pages1 => expandParts totalPages fuel rest pages1
    | none => none

/-- The elements of `[...new Set(pages)]`: each value once, in the order of
first insertion. -/
def uniq (pages : List Int) : List Int :=
  pages.foldl (fun seen x => if x ∈ seen then seen else seen ++ [x]) []

/-- The method `expandRange`: the 0-based page indices named by a range
expression, without duplicates and in ascending order.  The comparator
`(a, b) => a - b` orders integers numerically, so that the sorted array is
the ordered arrangement whatever the sorting algorithm. -/
def expandRange (totalPages fuel : Nat) (rangeStr : String) : Option (List Int) :=
  match expandParts totalPages fuel (split ',' rangeStr.data) [] with
  | some pages => some ((uniq pages).insertionSort (fun a b => a ≤ b))
  | none => none

/-- What one comma-separated part of a range expression says of the 0-based
index `k`: page `k + 1` exists and is the number the part reads as, or lies
between the two numbers of the part when it has a hyphen. -/
def partNames (totalPages : Nat) (part : List Char) (k : Int) : Prop :=
  0 ≤ k ∧ k < totalPages ∧
    if includes (trim part) '-' then
      JSNumber.le (((split '-' (trim part)).map (fun n => parseInt (trim n))).getD 0 JSNumber.nan)
          (JSNumber.fin (k + 1)) = true ∧
        JSNumber.le (JSNumber.fin (k + 1))
          (((split '-' (trim part)).map (fun n => parseInt (trim n))).getD 1 JSNumber.nan) = true
    else parseInt (trim part) = JSNumber.fin (k + 1)

/-- The largest integer `n` such that `n` and `n + 1` are both exact Numbers
(`Number.MAX_SAFE_INTEGER`).  A page count never exceeds it. -/
def maxSafeInteger : Nat := 2 ^ 53 - 1

/-- A well-formed token of a range expression: a single page number, or a
span of two page numbers, each given by its decimal numeral. -/
inductive Token where
  | page (n : List Char)
  | span (a b : List Char)

namespace Token

/-- The numerals of a token are decimal numerals. -/
def wellFormed : Token → Prop
  | page n => isDecimal n
  | span a b => isDecimal a ∧ isDecimal b

/-- The text of a token: the numeral, or the two numerals around a hyphen. -/
def text : Token → List Char
  | page n => n
  | span a b => a ++ '-' :: b

/-- The token names page `p`: it is the number `p`, or a span that `p` lies in. -/
def names : Token → Int → Prop
  | page n, p => (decimalValue n : Int) = p
  | span a b, p => (decimalValue a : Int) ≤ p ∧ p ≤ (decimalValue b : Int)

/-- The end of a span is an exact integer whose successor is exact too, so
that the loop variable can step past it. -/
def safe : Token → Prop
  | page _ => True
  | span _ b => decimalValue b ≤ maxSafeInteger

/-- The number of rounds of the span loop that a token asks for. -/
def cost : Token → Nat
  | page _ => 0
  | span a b => decimalValue b + 1 - decimalValue a

end Token

/-! ## Page fields and page order -/

/-- The Numbers that `parseInt` reads from the fields `startPage` and
`endPage`. -/
structure PageFields where
  startPage : JSNumber
  endPage : JSNumber
  deriving DecidableEq, Repr

/-- The method `updatePageInputs`: three tests on the values read at entry,
each of which may overwrite one field. -/
def updatePageInputs (totalPages : Nat) (f : PageFields) : PageFields :=
  let startPage := f.startPage
  let endPage := f.endPage
  let f1 := if JSNumber.lt endPage startPage then { f with endPage := startPage } else f
  let f2 := if JSNumber.lt startPage (JSNumber.fin 1) then { f1 with startPage := JSNumber.fin 1 } else f1
  if JSNumber.lt (JSNumber.fin totalPages) endPage then { f2 with endPage := JSNumber.fin totalPages }
  else f2

/-- The two `splice` calls of `reorderPages` on the page order: the entry at
`draggedIndex` is removed, then inserted at `targetIndex` (at the end when
`targetIndex` is past it).  The result is `none` when `draggedIndex` is past
the last entry: `movedPage` is then `undefined`, which is no page number. -/
def reorderPages (pageOrder : List Nat) (draggedIndex targetIndex : Nat) : Option (List Nat) :=
  match pageOrder.get? draggedIndex with
  | none => none
  | some movedPage =>
    let rest := pageOrder.eraseIdx draggedIndex
    some (rest.take targetIndex ++ movedPage :: rest.drop targetIndex)

/-- The fields of a `PDFCutter` that the split logic reads: whether a
document is loaded, its number of pages and the page order. -/
structure Cutter where
  pdfDoc : Bool
  totalPages : Nat
  pageOrder : List Nat
  deriving DecidableEq, Repr

namespace Cutter

/-- The state set up by the constructor. -/
def init : Cutter := { pdfDoc := false, totalPages := 0, pageOrder := [] }

/-- A successful `loadPDF` of a document of `numPages` pages. -/
def loadPDF (_c : Cutter) (numPages : Nat) : Cutter :=
  { pdfDoc := true, totalPages := numPages, pageOrder := (List.range numPages).map (fun i => i + 1) }

/-- The method `reorderPages` on the state. -/
def reorderPages (c : Cutter) (draggedIndex targetIndex : Nat) : Option Cutter :=
  match PDFCutter.reorderPages c.pageOrder draggedIndex targetIndex with
  | some order => some { c with pageOrder := order }
  | none => none

/-- The method `removeFile`. -/
def removeFile (_c : Cutter) : Cutter := { pdfDoc := false, totalPages := 0, pageOrder := [] }

/-- The method `resetApplication`. -/
def resetApplication (c : Cutter) : Cutter := { removeFile c with pageOrder := [] }

end Cutter

/-- The states a `PDFCutter` goes through: construction, successful loads,
page moves between positions of the page order, `removeFile` and
`resetApplication`. -/
inductive Reachable : Cutter → Prop where
  | init : Reachable Cutter.init
  | loadPDF (c : Cutter) (numPages : Nat) : Reachable c → Reachable (c.loadPDF numPages)
  | reorderPages (c c1 : Cutter) (draggedIndex targetIndex : Nat) : Reachable c →
      draggedIndex < c.totalPages → targetIndex < c.totalPages →
      c.reorderPages draggedIndex targetIndex = some c1 → Reachable c1
  | removeFile (c : Cutter) : Reachable c → Reachable c.removeFile
  | resetApplication (c : Cutter) : Reachable c → Reachable c.resetApplication

/-! ## Splitting -/

/-- One entry of the array a split method returns.  The saved bytes `data`
are stood for by the source page indices copied into the new document, in
order. -/
structure SplitResult where
  name : String
  data : List Int
  pageCount : JSNumber
  deriving DecidableEq, Repr

/-- How a split method ends: with its array of results, or with an error. -/
inductive Outcome where
  | returned (results : List SplitResult)
  | threw (message : String)
  deriving DecidableEq, Repr

/-- What a split method does: the percentages it passes to `updateProgress`,
in order (as exact fractions), and how it ends. -/
structure Run where
  progress : List ℚ
  outcome : Outcome
  deriving DecidableEq

/-- Modelled from the spec: `copyPages` of the PDF library, which is not part
of the repository.  It copies the pages at the given indices, in the given
order, and fails with `InvalidPageIndex` if an index is outside
`[0, pageCount - 1]`. -/
def copyPages (pageCount : Nat) : List JSNumber → Except String (List Int)
  | [] => Except.ok []
  | JSNumber.fin z :: rest =>
    if 0 ≤ z ∧ z < pageCount then
      match copyPages pageCount rest with
      | Except.ok pages => Except.ok (z :: pages)
      | Except.error e => Except.error e
    else Except.error "InvalidPageIndex"
  | _ :: _ => Except.error "InvalidPageIndex"

/-- The conversion of a Number to a string in a template literal.  An integer
of magnitude up to `2^53` prints as its decimal numeral.  A larger finite
Number prints the shortest digits that read back as the same double, a
rendering left to the argument `shortest`. -/
def numberToString (shortest : Int → String) : JSNumber → String
  | JSNumber.nan => "NaN"
  | JSNumber.posInf => "Infinity"
  | JSNumber.negInf => "-Infinity"
  | JSNumber.fin z =>
    if z.natAbs ≤ 2 ^ 53 then (if z < 0 then "-" ++ toString z.natAbs else toString z.natAbs)
    else shortest z

/-- The loop `for (let i = startPage - 1; i < endPage; i++) pageIndices.push(i)`
of `splitByRange`, on fuel. -/
def rangeLoop (e : JSNumber) : Nat → JSNumber → List JSNumber → Option (List JSNumber)
  | 0, i, pageIndices => if JSNumber.lt i e then none else some pageIndices
  | fuel + 1, i, pageIndices =>
    if JSNumber.lt i e then rangeLoop e fuel (JSNumber.add i (JSNumber.fin 1)) (pageIndices ++ [i])
    else some pageIndices

/-- The method `splitByRange`, for a document of `totalPages` pages. -/
def splitByRange (shortest : Int → String) (totalPages fuel : Nat) (f : PageFields) : Option Run :=
  match rangeLoop f.endPage fuel (JSNumber.sub f.startPage (JSNumber.fin 1)) [] with
  | none => none
  | some pageIndices =>
    match copyPages totalPages pageIndices with
    | Except.error e => some { progress := [25, 50], outcome := Outcome.threw e }
    | Except.ok pages =>
      some { progress := [25, 50, 75, 100],
             outcome := Outcome.returned
              [{ name := "pages_" ++ numberToString shortest f.startPage ++ "-" ++
                   numberToString shortest f.endPage ++ ".pdf",
                 data := pages,
                 pageCount := JSNumber.add (JSNumber.sub f.endPage f.startPage) (JSNumber.fin 1) }] }

/-- The loop of `splitToSinglePages` over the page indices still to do. -/
def singleLoop (totalPages : Nat) : List Nat → List ℚ → List SplitResult → Run
  | [], progress, results => { progress := progress, outcome := Outcome.returned results }
  | i :: rest, progress, results =>
    let progress1 := progress ++ [((i : ℚ) / (totalPages : ℚ)) * 100]
    match copyPages totalPages [JSNumber.fin i] with
    | Except.error e => { progress := progress1, outcome := Outcome.threw e }
    | Except.ok pages =>
      singleLoop totalPages rest progress1
        (results ++ [{ name := "page_" ++ toString (i + 1) ++ ".pdf", data := pages,
                       pageCount := JSNumber.fin 1 }])

/-- The method `splitToSinglePages`. -/
def splitToSinglePages (totalPages : Nat) : Run :=
  singleLoop totalPages (List.range totalPages) [] []

/-- The method `parseCustomRanges`: the trimmed values of the range inputs
that are not empty. -/
def parseCustomRanges (rangeInputs : List String) : List String :=
  (rangeInputs.map (fun value => String.mk (trim value.data))).filter (fun value => value != "")

/-- The loop of `splitByCustomRanges` from index `i` on, over the ranges still
to do; `count` is `ranges.length`. -/
def customLoop (totalPages fuel count : Nat) :
    Nat → List String → List ℚ → List SplitResult → Option Run
  | _, [], progress, results => some { progress := progress, outcome := Outcome.returned results }
  | i, range :: rest, progress, results =>
    let progress1 := progress ++ [((i : ℚ) / (count : ℚ)) * 100]
    match expandRange totalPages fuel range with
    | none => none
    | some pageIndices =>
      match copyPages totalPages (pageIndices.map JSNumber.fin) with
      | Except.error e => some { progress := progress1, outcome := Outcome.threw e }
      | Except.ok pages =>
        customLoop totalPages fuel count (i + 1) rest progress1
          (results ++ [{ name := "range_" ++ toString (i + 1) ++ ".pdf", data := pages,
                         pageCount := JSNumber.fin pageIndices.length }])

/-- The method `splitByCustomRanges`, given the values of the range inputs. -/
def splitByCustomRanges (totalPages fuel : Nat) (rangeInputs : List String) : Option Run :=
  let ranges := parseCustomRanges rangeInputs
  if ranges.length = 0 then
    some { progress := [], outcome := Outcome.threw "Please specify valid page ranges." }
  else customLoop totalPages fuel ranges.length 0 ranges [] []

/-- The method `splitByReorder`. -/
def splitByReorder (c : Cutter) : Run :=
  match copyPages c.totalPages
      (c.pageOrder.map (fun pageNum : Nat => JSNumber.fin ((pageNum : Int) - 1))) with
  | Except.error e => { progress := [25, 50], outcome := Outcome.threw e }
  | Except.ok pages =>
    { progress := [25, 50, 75, 100],
      outcome := Outcome.returned
        [{ name := "reordered_pages.pdf", data := pages,
           pageCount := JSNumber.fin c.pageOrder.length }] }

/-- The value of the checked `splitOption` radio button. -/
inductive SplitOption where
  | range
  | single
  | custom
  | reorder
  deriving DecidableEq, Repr

/-- The method `splitPDF`: nothing happens beyond an alert when no document is
loaded; otherwise progress 0 is reported, the chosen split method runs, and
an error it throws is replaced by the alert text of the `catch` block. -/
def splitPDF (shortest : Int → String) (c : Cutter) (fuel : Nat) (splitOption : SplitOption)
    (f : PageFields) (rangeInputs : List String) : Option Run :=
  if c.pdfDoc = false then
    some { progress := [], outcome := Outcome.threw "Please load a PDF file first." }
  else
    let run : Option Run :=
      match splitOption with
      | SplitOption.range => splitByRange shortest c.totalPages fuel f
      | SplitOption.single => some (splitToSinglePages c.totalPages)
      | SplitOption.custom => splitByCustomRanges c.totalPages fuel rangeInputs
      | SplitOption.reorder => some (splitByReorder c)
    match run with
    | none => none
    | some r =>
      some { progress := 0 :: r.progress,
             outcome :=
               match r.outcome with
               | Outcome.returned results => Outcome.returned results
               | Outcome.threw _ => Outcome.threw "Failed to split PDF. Please try again." }

/-! ## Rounding of integers to Numbers -/

theorem roundNat_of_lt {n : Nat} (h : n < 2 ^ 53) : roundNat n = n := by
  rw [roundNat, if_pos h]

theorem le_quot_mul {n : Nat} (h : 2 ^ 53 ≤ n) :
    2 ^ 53 ≤ n / 2 ^ (Nat.log2 n - 52) * 2 ^ (Nat.log2 n - 52) := by
  have hn : n ≠ 0 := by
    intro h0
    rw [h0] at h
    exact absurd h (by norm_num)
  have h53 : 53 ≤ Nat.log2 n := (Nat.le_log2 hn).2 h
  have hpow : 2 ^ Nat.log2 n ≤ n := Nat.log2_self_le hn
  have hsplit : 2 ^ Nat.log2 n = 2 ^ 52 * 2 ^ (Nat.log2 n - 52) := by
    rw [← pow_add]
    congr 1
    omega
  have hq : 2 ^ 52 ≤ n / 2 ^ (Nat.log2 n - 52) := by
    rw [Nat.le_div_iff_mul_le (by positivity)]
    rw [← hsplit]
    exact hpow
  have he : 2 ≤ 2 ^ (Nat.log2 n - 52) := by
    calc 2 = 2 ^ 1 := by norm_num
      _ ≤ 2 ^ (Nat.log2 n - 52) := Nat.pow_le_pow_right (by norm_num) (by omega)
  calc 2 ^ 53 = 2 ^ 52 * 2 := by norm_num
    _ ≤ n / 2 ^ (Nat.log2 n - 52) * 2 ^ (Nat.log2 n - 52) := Nat.mul_le_mul hq he

theorem le_roundNat {n : Nat} (h : 2 ^ 53 ≤ n) : 2 ^ 53 ≤ roundNat n := by
  have hb := le_quot_mul h
  have hnot : ¬ n < 2 ^ 53 := by omega
  simp only [roundNat, hnot, if_false]
  split
  · exact hb
  · split
    · exact hb
    · calc 2 ^ 53 ≤ n / 2 ^ (Nat.log2 n - 52) * 2 ^ (Nat.log2 n - 52) := hb
        _ ≤ (n / 2 ^ (Nat.log2 n - 52) + 1) * 2 ^ (Nat.log2 n - 52) :=
          Nat.mul_le_mul_right _ (Nat.le_succ _)

theorem pow53_lt_limit : 2 ^ 53 < 1 <<< 1024 := by
  decide

/-- An integer below `2^53` in magnitude is a Number. -/
theorem toNumber_of_lt {z : Int} (h : z.natAbs < 2 ^ 53) : toNumber z = JSNumber.fin z := by
  have hlim := pow53_lt_limit
  have hnot : ¬ 1 <<< 1024 ≤ z.natAbs := by omega
  simp only [toNumber, roundNat_of_lt h, hnot, if_false]
  congr 1
  split <;> omega

/-- An integer from `2^53` on rounds to a Number from `2^53` on. -/
theorem toNumber_of_ge {z : Int} (h : 2 ^ 53 ≤ z) :
    toNumber z = JSNumber.posInf ∨ ∃ w : Int, 2 ^ 53 ≤ w ∧ toNumber z = JSNumber.fin w := by
  have hz : ¬ z < 0 := by
    have : (0 : Int) < 2 ^ 53 := by norm_num
    omega
  have habs : 2 ^ 53 ≤ z.natAbs := by
    have : ((2 ^ 53 : Nat) : Int) = 2 ^ 53 := by norm_num
    omega
  have hr := le_roundNat habs
  by_cases hbig : 1 <<< 1024 ≤ roundNat z.natAbs
  · left
    simp only [toNumber, hbig, hz, if_true, if_false]
  · right
    refine ⟨(roundNat z.natAbs : Int), ?_, ?_⟩
    · have : ((2 ^ 53 : Nat) : Int) = 2 ^ 53 := by norm_num
      omega
    · simp only [toNumber, hbig, hz, if_false]

/-- A negative integer rounds to a Number that is not positive. -/
theorem toNumber_of_neg {z : Int} (h : z < 0) :
    toNumber z = JSNumber.negInf ∨ ∃ w : Int, w ≤ 0 ∧ toNumber z = JSNumber.fin w := by
  by_cases hbig : 1 <<< 1024 ≤ roundNat z.natAbs
  · left
    simp only [toNumber, hbig, h, if_true]
  · right
    refine ⟨-(roundNat z.natAbs : Int), by omega, ?_⟩
    simp only [toNumber, hbig, h, if_true, if_false]

/-! ## The span loop -/

theorem maxSafeInteger_eq : maxSafeInteger = 2 ^ 53 - 1 := rfl

/-- For `0 <= m < 2^53` a comparison `i <= m` holds when `i` is `m` or `i + 1 <= m`:
the step `i++` of the loops skips no page number. -/
theorem le_step (i : JSNumber) {m : Int} (hm0 : 0 ≤ m) (hm : m ≤ 2 ^ 53 - 1) :
    JSNumber.le i (JSNumber.fin m) = true ↔
      i = JSNumber.fin m ∨ JSNumber.le (JSNumber.add i (JSNumber.fin 1)) (JSNumber.fin m) = true := by
  cases i with
  | nan => simp [JSNumber.le, JSNumber.add]
  | negInf => simp [JSNumber.le, JSNumber.add]
  | posInf => simp [JSNumber.le, JSNumber.add]
  | fin x =>
    simp only [JSNumber.le, JSNumber.add, decide_eq_true_eq, JSNumber.fin.injEq]
    by_cases hneg : x + 1 < 0
    · rcases toNumber_of_neg hneg with h | ⟨w, hw, h⟩
      · rw [h]
        simp only [JSNumber.le]
        constructor
        · intro _
          right
          trivial
        · intro _
          omega
      · rw [h]
        simp only [JSNumber.le, decide_eq_true_eq]
        omega
    · by_cases hbig : (2 : Int) ^ 53 ≤ x + 1
      · rcases toNumber_of_ge hbig with h | ⟨w, hw, h⟩
        · rw [h]
          simp only [JSNumber.le]
          constructor
          · intro _
            left
            omega
          · rintro (h1 | h1)
            · omega
            · exact absurd h1 (by simp)
        · rw [h]
          simp only [JSNumber.le, decide_eq_true_eq]
          omega
      · have hsmall : (x + 1).natAbs < 2 ^ 53 := by omega
        rw [toNumber_of_lt hsmall]
        simp only [JSNumber.le, decide_eq_true_eq]
        omega

/-- The comparison `<=` of Numbers is transitive. -/
theorem le_trans_num {a b c : JSNumber} (h1 : JSNumber.le a b = true)
    (h2 : JSNumber.le b c = true) : JSNumber.le a c = true := by
  cases a <;> cases b <;> cases c <;> simp_all [JSNumber.le]
  omega

/-- The pages held after `pushPage`, for a page count within the exact
integers: those held before, and the index `k` when `i` is the page number
`k + 1` of the document. -/
theorem mem_pushPage {totalPages : Nat} (h : totalPages ≤ maxSafeInteger) (i : JSNumber)
    (pages : List Int) (k : Int) :
    k ∈ pushPage totalPages i pages ↔
      k ∈ pages ∨ (i = JSNumber.fin (k + 1) ∧ 0 ≤ k ∧ k < totalPages) := by
  rw [maxSafeInteger_eq] at h
  cases i with
  | nan => simp [pushPage, JSNumber.le]
  | negInf => simp [pushPage, JSNumber.le]
  | posInf => simp [pushPage, JSNumber.le]
  | fin z =>
    by_cases hz : 1 ≤ z ∧ z ≤ totalPages
    · have hsmall : (z + -1).natAbs < 2 ^ 53 := by omega
      simp only [pushPage, JSNumber.le, hz.1, hz.2, decide_True, Bool.and_self, if_true,
        JSNumber.sub, JSNumber.neg, JSNumber.add, toNumber_of_lt hsmall, List.mem_append,
        List.mem_singleton, JSNumber.fin.injEq]
      constructor
      · rintro (h1 | h1)
        · exact Or.inl h1
        · right
          omega
      · rintro (h1 | h1)
        · exact Or.inl h1
        · right
          omega
    · have hif : (decide (1 ≤ z) && decide (z ≤ (totalPages : Int))) = false := by
        simp only [Bool.and_eq_false_imp, decide_eq_true_eq, decide_eq_false_iff_not]
        intro h1 h2
        exact hz ⟨h1, h2⟩
      simp only [pushPage, JSNumber.le, hif, JSNumber.fin.injEq]
      constructor
      · intro h1
        exact Or.inl h1
      · rintro (h1 | ⟨h1, h2, h3⟩)
        · exact h1
        · exact absurd ⟨by omega, by omega⟩ hz

/-- The pages held when the span loop ends: those held before it, and every
index `k` of the document whose page number `k + 1` lies between the loop
variable and the end of the span. -/
theorem mem_spanLoop {totalPages : Nat} (h : totalPages ≤ maxSafeInteger) (e : JSNumber) :
    ∀ (fuel : Nat) (i : JSNumber) (pages out : List Int),
      spanLoop totalPages e fuel i pages = some out →
      ∀ k : Int, k ∈ out ↔
        k ∈ pages ∨ (0 ≤ k ∧ k < totalPages ∧ JSNumber.le i (JSNumber.fin (k + 1)) = true ∧
          JSNumber.le (JSNumber.fin (k + 1)) e = true) := by
  have hdone : ∀ (i : JSNumber) (pages : List Int) (k : Int), ¬ JSNumber.le i e = true →
      (k ∈ pages ↔ k ∈ pages ∨ (0 ≤ k ∧ k < totalPages ∧
        JSNumber.le i (JSNumber.fin (k + 1)) = true ∧
        JSNumber.le (JSNumber.fin (k + 1)) e = true)) := by
    intro i pages k hle
    constructor
    · intro h1
      exact Or.inl h1
    · rintro (h1 | ⟨_, _, h3, h4⟩)
      · exact h1
      · exact absurd (le_trans_num h3 h4) hle
  intro fuel
  induction fuel with
  | zero =>
    intro i pages out hrun k
    by_cases hle : JSNumber.le i e = true
    · simp [spanLoop, hle] at hrun
    · simp only [spanLoop, hle, if_false, Option.some.injEq, Bool.false_eq_true] at hrun
      rw [← hrun]
      exact hdone i pages k hle
  | succ fuel ih =>
    intro i pages out hrun k
    by_cases hle : JSNumber.le i e = true
    · simp only [spanLoop, hle, if_true] at hrun
      rw [ih _ _ _ hrun k, mem_pushPage h]
      have hmax := maxSafeInteger_eq
      constructor
      · rintro ((h1 | ⟨h1, h2, h3⟩) | ⟨h1, h2, h3, h4⟩)
        · exact Or.inl h1
        · right
          refine ⟨h2, h3, ?_, ?_⟩
          · rw [h1]
            simp [JSNumber.le]
          · rw [← h1]
            exact hle
        · right
          refine ⟨h1, h2, ?_, h4⟩
          exact (le_step i (by omega) (by omega)).2 (Or.inr h3)
      · rintro (h1 | ⟨h1, h2, h3, h4⟩)
        · exact Or.inl (Or.inl h1)
        · rcases (le_step i (by omega) (by omega)).1 h3 with h5 | h5
          · exact Or.inl (Or.inr ⟨h5, h1, h2⟩)
          · exact Or.inr ⟨h1, h2, h5, h4⟩
    · simp only [spanLoop, hle, if_false, Option.some.injEq, Bool.false_eq_true] at hrun
      rw [← hrun]
      exact hdone i pages k hle

/-! ## The range parser on arbitrary text -/

theorem mem_expandPart {totalPages : Nat} (h : totalPages ≤ maxSafeInteger) (fuel : Nat)
    (part : List Char) (pages out : List Int)
    (hrun : expandPart totalPages fuel part pages = some out) (k : Int) :
    k ∈ out ↔ k ∈ pages ∨ partNames totalPages part k := by
  by_cases hinc : includes (trim part) '-' = true
  · simp only [expandPart, hinc, if_true] at hrun
    rw [mem_spanLoop h _ _ _ _ _ hrun k]
    simp only [partNames, hinc, if_true]
  · simp only [expandPart, hinc, if_false, Option.some.injEq, Bool.false_eq_true] at hrun
    rw [← hrun, mem_pushPage h]
    simp only [partNames, hinc, if_false, Bool.false_eq_true]
    constructor
    · rintro (h1 | ⟨h1, h2, h3⟩)
      · exact Or.inl h1
      · exact Or.inr ⟨h2, h3, h1⟩
    · rintro (h1 | ⟨h1, h2, h3⟩)
      · exact Or.inl h1
      · exact Or.inr ⟨h3, h1, h2⟩

theorem mem_expandParts {totalPages : Nat} (h : totalPages ≤ maxSafeInteger) (fuel : Nat) :
    ∀ (parts : List (List Char)) (pages out : List Int),
      expandParts totalPages fuel parts pages = some out →
      ∀ k : Int, k ∈ out ↔ k ∈ pages ∨ ∃ part ∈ parts, partNames totalPages part k := by
  intro parts
  induction parts with
  | nil =>
    intro pages out hrun k
    simp only [expandParts, Option.some.injEq] at hrun
    simp [hrun]
  | cons part rest ih =>
    intro pages out hrun k
    simp only [expandParts] at hrun
    cases hpart : expandPart totalPages fuel part pages with
    | none => simp [hpart] at hrun
    | some pages1 =>
      simp only [hpart] at hrun
      rw [ih pages1 out hrun k, mem_expandPart h fuel part pages pages1 hpart k]
      simp only [List.mem_cons, exists_eq_or_imp]
      tauto

theorem foldl_uniq_spec (l : List Int) :
    ∀ seen : List Int, seen.Nodup →
      (l.foldl (fun seen x => if x ∈ seen then seen else seen ++ [x]) seen).Nodup ∧
      ∀ k, k ∈ l.foldl (fun seen x => if x ∈ seen then seen else seen ++ [x]) seen ↔
        k ∈ seen ∨ k ∈ l := by
  induction l with
  | nil =>
    intro seen hnd
    simp [hnd]
  | cons x rest ih =>
    intro seen hnd
    simp only [List.foldl_cons]
    by_cases hx : x ∈ seen
    · simp only [hx, if_true]
      refine ⟨(ih seen hnd).1, ?_⟩
      intro k
      rw [(ih seen hnd).2 k]
      simp only [List.mem_cons]
      constructor
      · rintro (h1 | h1)
        · exact Or.inl h1
        · exact Or.inr (Or.inr h1)
      · rintro (h1 | h1 | h1)
        · exact Or.inl h1
        · exact Or.inl (h1 ▸ hx)
        · exact Or.inr h1
    · simp only [hx, if_false]
      have hnd1 : (seen ++ [x]).Nodup := by
        rw [List.nodup_append]
        refine ⟨hnd, List.nodup_singleton x, ?_⟩
        intro a ha hb
        rw [List.mem_singleton] at hb
        exact hx (hb ▸ ha)
      refine ⟨(ih _ hnd1).1, ?_⟩
      intro k
      rw [(ih _ hnd1).2 k]
      simp only [List.mem_append, List.mem_singleton, List.mem_cons]
      tauto

theorem nodup_uniq (pages : List Int) : (uniq pages).Nodup :=
  (foldl_uniq_spec pages [] List.nodup_nil).1

theorem mem_uniq (pages : List Int) (k : Int) : k ∈ uniq pages ↔ k ∈ pages := by
  have h := (foldl_uniq_spec pages [] List.nodup_nil).2 k
  simpa [uniq] using h

/-- The array that `expandRange` returns is strictly increasing. -/
theorem sorted_expandRange {totalPages fuel : Nat} {rangeStr : String} {out : List Int}
    (hrun : expandRange totalPages fuel rangeStr = some out) : out.Sorted (fun a b => a < b) := by
  unfold expandRange at hrun
  cases hparts : expandParts totalPages fuel (split ',' rangeStr.data) [] with
  | none => simp [hparts] at hrun
  | some pages =>
    simp only [hparts, Option.some.injEq] at hrun
    rw [← hrun]
    apply List.Sorted.lt_of_le
    · exact List.sorted_insertionSort (fun a b : Int => a ≤ b) (uniq pages)
    · exact (List.perm_insertionSort (fun a b : Int => a ≤ b) (uniq pages)).nodup_iff.2
        (nodup_uniq pages)

/-- The indices that `expandRange` returns are those that some
comma-separated part of the expression names. -/
theorem mem_expandRange {totalPages : Nat} (h : totalPages ≤ maxSafeInteger) {fuel : Nat}
    {rangeStr : String} {out : List Int}
    (hrun : expandRange totalPages fuel rangeStr = some out) (k : Int) :
    k ∈ out ↔ ∃ part ∈ split ',' rangeStr.data, partNames totalPages part k := by
  unfold expandRange at hrun
  cases hparts : expandParts totalPages fuel (split ',' rangeStr.data) [] with
  | none => simp [hparts] at hrun
  | some pages =>
    simp only [hparts, Option.some.injEq] at hrun
    rw [← hrun, (List.perm_insertionSort (fun a b : Int => a ≤ b) (uniq pages)).mem_iff,
      mem_uniq, mem_expandParts h fuel _ _ _ hparts k]
    simp

/-- Every index that `expandRange` returns is an index of the document. -/
theorem expandRange_bounds {totalPages : Nat} (h : totalPages ≤ maxSafeInteger) {fuel : Nat}
    {rangeStr : String} {out : List Int}
    (hrun : expandRange totalPages fuel rangeStr = some out) {k : Int} (hk : k ∈ out) :
    0 ≤ k ∧ k < totalPages := by
  obtain ⟨part, _, h1, h2, _⟩ := (mem_expandRange h hrun k).1 hk
  exact ⟨h1, h2⟩

/-! ## Decimal numerals -/

theorem digit_not_whiteSpace {c : Char} (h : 48 ≤ c.toNat ∧ c.toNat ≤ 57) :
    isWhiteSpace c = false := by
  simp only [isWhiteSpace, Bool.or_eq_false_iff, Bool.and_eq_false_imp, beq_eq_false_iff_ne,
    decide_eq_true_eq, decide_eq_false_iff_not, ne_eq]
  omega

theorem digit_ne {c d : Char} (h : 48 ≤ c.toNat ∧ c.toNat ≤ 57)
    (hd : d.toNat < 48 ∨ 57 < d.toNat) : c ≠ d := by
  intro hcd
  subst hcd
  omega

theorem dropWhile_eq_self {p : Char → Bool} {l : List Char}
    (h : ∀ c, l.head? = some c → p c = false) : l.dropWhile p = l := by
  cases l with
  | nil => rfl
  | cons c cs => simp [List.dropWhile, h c rfl]

/-- The method `trim` leaves alone a string that neither starts nor ends with
whitespace. -/
theorem trim_eq_self {s : List Char} (h1 : ∀ c, s.head? = some c → isWhiteSpace c = false)
    (h2 : ∀ c, s.getLast? = some c → isWhiteSpace c = false) : trim s = s := by
  unfold trim
  rw [dropWhile_eq_self h1, dropWhile_eq_self, List.reverse_reverse]
  intro c hc
  rw [List.head?_reverse] at hc
  exact h2 c hc

theorem trim_decimal {s : List Char} (h : isDecimal s) : trim s = s := by
  apply trim_eq_self
  · intro c hc
    exact digit_not_whiteSpace (h.2 c (List.mem_of_mem_head? hc))
  · intro c hc
    exact digit_not_whiteSpace (h.2 c (List.mem_of_getLast?_eq_some hc))

theorem split_of_not_mem (sep : Char) : ∀ s : List Char, sep ∉ s → split sep s = [s] := by
  intro s
  induction s with
  | nil =>
    intro _
    rfl
  | cons c cs ih =>
    intro h
    have hc : c ≠ sep := fun hcs => h (hcs ▸ List.mem_cons_self c cs)
    have hcs : sep ∉ cs := fun hm => h (List.mem_cons_of_mem c hm)
    simp [split, hc, ih hcs]

theorem split_append (sep : Char) (b : List Char) :
    ∀ a : List Char, sep ∉ a → split sep (a ++ sep :: b) = a :: split sep b := by
  intro a
  induction a with
  | nil =>
    intro _
    simp [split]
  | cons c cs ih =>
    intro h
    have hc : c ≠ sep := fun hcs => h (hcs ▸ List.mem_cons_self c cs)
    have hcs : sep ∉ cs := fun hm => h (List.mem_cons_of_mem c hm)
    simp [split, hc, ih hcs]

theorem not_mem_decimal {s : List Char} (h : isDecimal s) {d : Char}
    (hd : d.toNat < 48 ∨ 57 < d.toNat) : d ∉ s := by
  intro hm
  exact digit_ne (h.2 d hm) hd rfl

theorem takeDigits_digits : ∀ s : List Char, (∀ c ∈ s, 48 ≤ c.toNat ∧ c.toNat ≤ 57) →
    takeDigits 10 s = s.map (fun c => c.toNat - 48) := by
  intro s
  induction s with
  | nil =>
    intro _
    rfl
  | cons c cs ih =>
    intro h
    have hc := h c (List.mem_cons_self c cs)
    have hlt : c.toNat - 48 < 10 := by omega
    simp only [takeDigits, radixDigit, digitValue, hc, and_self, if_true, hlt, List.map_cons]
    rw [ih (fun d hd => h d (List.mem_cons_of_mem c hd))]

theorem digitsValue_map (s : List Char) :
    digitsValue 10 (s.map (fun c => c.toNat - 48)) = decimalValue s := by
  simp [digitsValue, decimalValue, List.foldl_map]

/-- On a decimal numeral `parseInt` returns the Number nearest to the number
written. -/
theorem parseInt_decimal {s : List Char} (h : isDecimal s) :
    parseInt s = toNumber (decimalValue s) := by
  obtain ⟨hne, hall⟩ := h
  cases s with
  | nil => exact absurd rfl hne
  | cons c cs =>
    have hc := hall c (List.mem_cons_self c cs)
    have hws : isWhiteSpace c = false := digit_not_whiteSpace hc
    have h1 : c ≠ '-' := digit_ne hc (by decide)
    have h2 : c ≠ '+' := digit_ne hc (by decide)
    have hhex : ((c :: cs).take 2 == ['0', 'x'] || (c :: cs).take 2 == ['0', 'X']) = false := by
      cases cs with
      | nil => simp
      | cons d ds =>
        have hd := hall d (List.mem_cons_of_mem c (List.mem_cons_self d ds))
        have h3 : d ≠ 'x' := digit_ne hd (by decide)
        have h4 : d ≠ 'X' := digit_ne hd (by decide)
        simp [h3, h4]
    have hdrop : (c :: cs).dropWhile isWhiteSpace = c :: cs := by
      simp [List.dropWhile, hws]
    have hplus : (some c == some '+') = false := by simp [h2]
    have hneg : (some c == some '-') = false := by simp [h1]
    have hempty : ((c :: cs).map (fun c => c.toNat - 48)).isEmpty = false := rfl
    unfold parseInt
    simp only [hdrop, List.head?_cons, hplus, hneg, Bool.or_self, Bool.false_eq_true, if_false, hhex,
      takeDigits_digits (c :: cs) hall, hempty, digitsValue_map]

theorem digitChar_toNat {m : Nat} (h : m < 10) : (Nat.digitChar m).toNat = 48 + m := by
  interval_cases m <;> rfl

theorem decimalValue_append (a : List Char) (c : Char) :
    decimalValue (a ++ [c]) = decimalValue a * 10 + (c.toNat - 48) := by
  simp [decimalValue, List.foldl_append]

theorem toDigitsCore_spec : ∀ (fuel n : Nat) (ds : List Char), n < fuel →
    ∃ pre : List Char, Nat.toDigitsCore 10 fuel n ds = pre ++ ds ∧ isDecimal pre ∧
      decimalValue pre = n := by
  intro fuel
  induction fuel with
  | zero =>
    intro n ds h
    omega
  | succ fuel ih =>
    intro n ds h
    have hd : (n % 10) < 10 := Nat.mod_lt n (by norm_num)
    have hdc := digitChar_toNat hd
    by_cases h0 : n / 10 = 0
    · refine ⟨[Nat.digitChar (n % 10)], ?_, ?_, ?_⟩
      · simp [Nat.toDigitsCore, h0]
      · refine ⟨by simp, ?_⟩
        intro c hc
        rw [List.mem_singleton] at hc
        rw [hc, hdc]
        omega
      · simp only [decimalValue, List.foldl_cons, List.foldl_nil, hdc]
        omega
    · obtain ⟨pre, hpre, hdec, hval⟩ := ih (n / 10) (Nat.digitChar (n % 10) :: ds) (by omega)
      refine ⟨pre ++ [Nat.digitChar (n % 10)], ?_, ?_, ?_⟩
      · simp [Nat.toDigitsCore, h0, hpre]
      · refine ⟨by simp, ?_⟩
        intro c hc
        rw [List.mem_append, List.mem_singleton] at hc
        rcases hc with hc | hc
        · exact hdec.2 c hc
        · rw [hc, hdc]
          omega
      · rw [decimalValue_append, hval, hdc]
        omega

/-- The decimal numeral of a natural number, as `toString` and a template
literal print it, is a decimal numeral that writes this number. -/
theorem toDigits_spec (n : Nat) :
    isDecimal (Nat.toDigits 10 n) ∧ decimalValue (Nat.toDigits 10 n) = n := by
  obtain ⟨pre, hpre, hdec, hval⟩ := toDigitsCore_spec (n + 1) n [] (Nat.lt_succ_self n)
  rw [List.append_nil] at hpre
  rw [Nat.toDigits, hpre]
  exact ⟨hdec, hval⟩

/-! ## Well-formed range expressions -/

theorem roundNat_pow53 : roundNat (2 ^ 53) = 2 ^ 53 := by
  have hlog : Nat.log2 (2 ^ 53) = 53 := Nat.log2_two_pow
  have hnot : ¬ (2 : Nat) ^ 53 < 2 ^ 53 := Nat.lt_irrefl _
  rw [roundNat, if_neg hnot]
  simp only [hlog]
  norm_num

/-- An integer up to `2^53` in magnitude is a Number. -/
theorem toNumber_of_le {z : Int} (h : z.natAbs ≤ 2 ^ 53) : toNumber z = JSNumber.fin z := by
  by_cases hlt : z.natAbs < 2 ^ 53
  · exact toNumber_of_lt hlt
  · have heq : z.natAbs = 2 ^ 53 := by omega
    have hlim := pow53_lt_limit
    have hnot : ¬ 1 <<< 1024 ≤ 2 ^ 53 := by omega
    simp only [toNumber, heq, roundNat_pow53, hnot, if_false]
    congr 1
    split <;> omega

/-- Comparing the Number nearest to `v` with an exact integer `m` below `2^53`
is comparing `v` with `m`. -/
theorem toNumber_le_iff (v : Nat) {m : Int} (hm : m ≤ 2 ^ 53 - 1) :
    JSNumber.le (toNumber v) (JSNumber.fin m) = true ↔ (v : Int) ≤ m := by
  by_cases hv : v < 2 ^ 53
  · rw [toNumber_of_lt (by omega)]
    simp [JSNumber.le]
  · rcases toNumber_of_ge (z := (v : Int)) (by omega) with h | ⟨w, hw, h⟩
    · rw [h]
      simp only [JSNumber.le]
      constructor
      · intro h1
        exact absurd h1 (by simp)
      · intro h1
        omega
    · rw [h]
      simp only [JSNumber.le, decide_eq_true_eq]
      omega

theorem le_toNumber_iff (v : Nat) {m : Int} (hm : m ≤ 2 ^ 53 - 1) :
    JSNumber.le (JSNumber.fin m) (toNumber v) = true ↔ m ≤ (v : Int) := by
  by_cases hv : v < 2 ^ 53
  · rw [toNumber_of_lt (by omega)]
    simp [JSNumber.le]
  · rcases toNumber_of_ge (z := (v : Int)) (by omega) with h | ⟨w, hw, h⟩
    · rw [h]
      simp only [JSNumber.le]
      constructor
      · intro _
        omega
      · intro _
        trivial
    · rw [h]
      simp only [JSNumber.le, decide_eq_true_eq]
      omega

theorem toNumber_eq_iff (v : Nat) {m : Int} (hm : m ≤ 2 ^ 53 - 1) :
    toNumber v = JSNumber.fin m ↔ (v : Int) = m := by
  by_cases hv : v < 2 ^ 53
  · rw [toNumber_of_lt (by omega)]
    simp
  · rcases toNumber_of_ge (z := (v : Int)) (by omega) with h | ⟨w, hw, h⟩
    · rw [h]
      constructor
      · intro h1
        exact absurd h1 (by simp)
      · intro h1
        omega
    · rw [h]
      simp only [JSNumber.fin.injEq]
      omega

theorem includes_iff (s : List Char) (c : Char) : includes s c = true ↔ c ∈ s := by
  simp [includes]

/-- The numbers `expandPart` reads from the text of a span. -/
theorem span_nums {a b : List Char} (ha : isDecimal a) (hb : isDecimal b) :
    (split '-' (a ++ '-' :: b)).map (fun n => parseInt (trim n)) =
      [toNumber (decimalValue a), toNumber (decimalValue b)] := by
  rw [split_append '-' b a (not_mem_decimal ha (by decide)),
    split_of_not_mem '-' b (not_mem_decimal hb (by decide))]
  simp only [List.map_cons, List.map_nil, trim_decimal ha, trim_decimal hb, parseInt_decimal ha,
    parseInt_decimal hb]

/-- What the part holding a well-formed token says of an index of the
document is what the token says of its page number. -/
theorem partNames_token {totalPages : Nat} (h : totalPages ≤ maxSafeInteger) {t : Token}
    (hwf : t.wellFormed) {part : List Char} (htrim : trim part = t.text) (k : Int) :
    partNames totalPages part k ↔ 0 ≤ k ∧ k < totalPages ∧ t.names (k + 1) := by
  rw [maxSafeInteger_eq] at h
  unfold partNames
  rw [htrim]
  cases t with
  | page n =>
    have hinc : includes n '-' = false := by
      rw [← Bool.not_eq_true, includes_iff]
      exact not_mem_decimal hwf (by decide)
    simp only [Token.text, hinc, Bool.false_eq_true, if_false, Token.names, parseInt_decimal hwf]
    constructor
    · rintro ⟨h1, h2, h3⟩
      exact ⟨h1, h2, (toNumber_eq_iff _ (by omega)).1 h3⟩
    · rintro ⟨h1, h2, h3⟩
      exact ⟨h1, h2, (toNumber_eq_iff _ (by omega)).2 h3⟩
  | span a b =>
    have hinc : includes (a ++ '-' :: b) '-' = true := by
      rw [includes_iff]
      simp
    simp only [Token.text, hinc, if_true, Token.names, span_nums hwf.1 hwf.2, List.getD_cons_zero,
      List.getD_cons_succ]
    constructor
    · rintro ⟨h1, h2, h3, h4⟩
      exact ⟨h1, h2, (toNumber_le_iff _ (by omega)).1 h3, (le_toNumber_iff _ (by omega)).1 h4⟩
    · rintro ⟨h1, h2, h3, h4⟩
      exact ⟨h1, h2, (toNumber_le_iff _ (by omega)).2 h3, (le_toNumber_iff _ (by omega)).2 h4⟩

/-- The parts of an expression made of well-formed tokens name the pages
that the tokens name. -/
theorem parts_tokens {totalPages : Nat} (h : totalPages ≤ maxSafeInteger) (k : Int) :
    ∀ (parts : List (List Char)) (toks : List Token), (∀ t ∈ toks, t.wellFormed) →
      parts.map trim = toks.map Token.text →
      ((∃ part ∈ parts, partNames totalPages part k) ↔
        0 ≤ k ∧ k < totalPages ∧ ∃ t ∈ toks, t.names (k + 1)) := by
  intro parts
  induction parts with
  | nil =>
    intro toks _ hmap
    cases toks with
    | nil => simp
    | cons t ts => simp at hmap
  | cons part rest ih =>
    intro toks hwf hmap
    cases toks with
    | nil => simp at hmap
    | cons t ts =>
      simp only [List.map_cons, List.cons.injEq] at hmap
      have hrest := ih ts (fun u hu => hwf u (List.mem_cons_of_mem t hu)) hmap.2
      have hhead := partNames_token h (hwf t (List.mem_cons_self t ts)) hmap.1 k
      simp only [List.mem_cons, exists_eq_or_imp, hhead, hrest]
      tauto

/-! ## Termination of the span loop -/

/-- The span loop ends within `fuel` rounds when its end is an exact integer
below `2^53` and at most `fuel` page numbers remain up to it. -/
theorem spanLoop_isSome (totalPages : Nat) {b : Nat} (hb : b ≤ maxSafeInteger) :
    ∀ (fuel : Nat) (i : JSNumber) (pages : List Int),
      (JSNumber.le i (JSNumber.fin b) = false ∨
        ∃ x : Nat, i = JSNumber.fin x ∧ b + 1 - x ≤ fuel) →
      ∃ out, spanLoop totalPages (JSNumber.fin b) fuel i pages = some out := by
  rw [maxSafeInteger_eq] at hb
  intro fuel
  induction fuel with
  | zero =>
    intro i pages hi
    have hle : JSNumber.le i (JSNumber.fin b) = false := by
      rcases hi with hi | ⟨x, hx, hfuel⟩
      · exact hi
      · rw [hx]
        simp only [JSNumber.le, decide_eq_false_iff_not]
        omega
    exact ⟨pages, by simp [spanLoop, hle]⟩
  | succ fuel ih =>
    intro i pages hi
    by_cases hle : JSNumber.le i (JSNumber.fin b) = true
    · rcases hi with hi | ⟨x, hx, hfuel⟩
      · rw [hi] at hle
        exact absurd hle (by simp)
      · subst hx
        have hxb : (x : Int) ≤ b := by
          simpa [JSNumber.le] using hle
        have hstep : JSNumber.add (JSNumber.fin x) (JSNumber.fin 1) = JSNumber.fin ((x + 1 : Nat) : Int) := by
          simp only [JSNumber.add]
          rw [toNumber_of_le (by omega)]
          simp
        simp only [spanLoop, hle, if_true, hstep]
        exact ih _ _ (Or.inr ⟨x + 1, rfl, by omega⟩)
    · exact ⟨pages, by simp [spanLoop, hle]⟩

/-- The Number read from a numeral either is the number written, or lies
beyond a given exact end. -/
theorem toNumber_start (v : Nat) {b : Nat} (hb : b ≤ maxSafeInteger) (fuel : Nat)
    (hfuel : b + 1 - v ≤ fuel) :
    JSNumber.le (toNumber v) (JSNumber.fin b) = false ∨
      ∃ x : Nat, toNumber v = JSNumber.fin x ∧ b + 1 - x ≤ fuel := by
  rw [maxSafeInteger_eq] at hb
  by_cases hv : v ≤ b
  · right
    exact ⟨v, toNumber_of_lt (by omega), hfuel⟩
  · left
    rw [← Bool.not_eq_true, toNumber_le_iff v (by omega)]
    omega

theorem expandPart_span (totalPages fuel : Nat) {a b part : List Char} (ha : isDecimal a)
    (hb : isDecimal b) (htrim : trim part = a ++ '-' :: b) (pages : List Int) :
    expandPart totalPages fuel part pages =
      spanLoop totalPages (toNumber (decimalValue b)) fuel (toNumber (decimalValue a)) pages := by
  have hinc : includes (a ++ '-' :: b) '-' = true := by
    rw [includes_iff]
    simp
  simp only [expandPart, htrim, hinc, if_true, span_nums ha hb, List.getD_cons_zero,
    List.getD_cons_succ]

theorem expandPart_page (totalPages fuel : Nat) {n part : List Char} (hn : isDecimal n)
    (htrim : trim part = n) (pages : List Int) :
    expandPart totalPages fuel part pages =
      some (pushPage totalPages (toNumber (decimalValue n)) pages) := by
  have hinc : includes n '-' = false := by
    rw [← Bool.not_eq_true, includes_iff]
    exact not_mem_decimal hn (by decide)
  simp only [expandPart, htrim, hinc, Bool.false_eq_true, if_false, parseInt_decimal hn]

/-- The parser ends on an expression of well-formed tokens whose spans end
at exact integers and ask for no more rounds than the fuel. -/
theorem expandParts_isSome (totalPages fuel : Nat) :
    ∀ (parts : List (List Char)) (toks : List Token) (pages : List Int),
      (∀ t ∈ toks, t.wellFormed ∧ t.safe ∧ t.cost ≤ fuel) →
      parts.map trim = toks.map Token.text →
      ∃ out, expandParts totalPages fuel parts pages = some out := by
  intro parts
  induction parts with
  | nil =>
    intro toks pages _ _
    exact ⟨pages, rfl⟩
  | cons part rest ih =>
    intro toks pages hall hmap
    cases toks with
    | nil => simp at hmap
    | cons t ts =>
      simp only [List.map_cons, List.cons.injEq] at hmap
      obtain ⟨hwf, hsafe, hcost⟩ := hall t (List.mem_cons_self t ts)
      have hpart : ∃ pages1, expandPart totalPages fuel part pages = some pages1 := by
        cases t with
        | page n => exact ⟨_, expandPart_page totalPages fuel hwf hmap.1 pages⟩
        | span a b =>
          have hbnum : toNumber (decimalValue b) = JSNumber.fin (decimalValue b) := by
            have hs : decimalValue b ≤ maxSafeInteger := hsafe
            rw [maxSafeInteger_eq] at hs
            exact toNumber_of_lt (by omega)
          rw [expandPart_span totalPages fuel hwf.1 hwf.2 hmap.1 pages, hbnum]
          exact spanLoop_isSome totalPages hsafe fuel _ pages
            (toNumber_start (decimalValue a) hsafe fuel hcost)
      obtain ⟨pages1, hp⟩ := hpart
      obtain ⟨out, hout⟩ := ih ts pages1 (fun u hu => hall u (List.mem_cons_of_mem t hu)) hmap.2
      exact ⟨out, by simp [expandParts, hp, hout]⟩

theorem expandRange_isSome (totalPages fuel : Nat) (rangeStr : String) (toks : List Token)
    (hall : ∀ t ∈ toks, t.wellFormed ∧ t.safe ∧ t.cost ≤ fuel)
    (hmap : (split ',' rangeStr.data).map trim = toks.map Token.text) :
    ∃ out, expandRange totalPages fuel rangeStr = some out := by
  obtain ⟨pages, hp⟩ := expandParts_isSome totalPages fuel _ toks [] hall hmap
  refine ⟨(uniq pages).insertionSort (fun a b => a ≤ b), ?_⟩
  simp only [expandRange, hp]

/-- Two strictly increasing lists with the same elements are equal. -/
theorem eq_of_sorted_of_mem {l1 l2 : List Int} (h1 : l1.Sorted (fun a b => a < b))
    (h2 : l2.Sorted (fun a b => a < b)) (h : ∀ k, k ∈ l1 ↔ k ∈ l2) : l1 = l2 :=
  List.eq_of_perm_of_sorted ((List.perm_ext_iff_of_nodup h1.nodup h2.nodup).2 h) h1 h2

theorem trim_text {t : Token} (hwf : t.wellFormed) : trim t.text = t.text := by
  cases t with
  | page n => exact trim_decimal hwf
  | span a b =>
    obtain ⟨ha, hb⟩ := hwf
    apply trim_eq_self
    · intro c hc
      cases a with
      | nil => exact absurd rfl ha.1
      | cons d ds =>
        simp only [Token.text, List.cons_append, List.head?_cons, Option.some.injEq] at hc
        exact digit_not_whiteSpace (hc ▸ ha.2 d (List.mem_cons_self d ds))
    · intro c hc
      have hlast : (a ++ '-' :: b).getLast? = b.getLast? := by
        rw [List.getLast?_append]
        cases hbl : b.getLast? with
        | none =>
          rw [List.getLast?_eq_none_iff] at hbl
          exact absurd hbl hb.1
        | some d =>
          have : ('-' :: b).getLast? = some d := by
            rw [List.getLast?_cons, hbl]
            rfl
          simp [this]
      simp only [Token.text, hlast] at hc
      exact digit_not_whiteSpace (hb.2 c (List.mem_of_getLast?_eq_some hc))

/-! ## The loop variable at `2^53` -/

theorem roundNat_pow53_succ : roundNat (2 ^ 53 + 1) = 2 ^ 53 := by
  have hn : (2 ^ 53 + 1 : Nat) ≠ 0 := by norm_num
  have h1 : 53 ≤ Nat.log2 (2 ^ 53 + 1) := (Nat.le_log2 hn).2 (by norm_num)
  have h2 : Nat.log2 (2 ^ 53 + 1) < 54 := (Nat.log2_lt hn).2 (by norm_num)
  have hlog : Nat.log2 (2 ^ 53 + 1) = 53 := by omega
  have hnot : ¬ (2 ^ 53 + 1 : Nat) < 2 ^ 53 := by norm_num
  rw [roundNat, if_neg hnot]
  simp only [hlog]
  norm_num

/-- At `2^53` the step `i++` leaves `i` as it is. -/
theorem add_one_pow53 :
    JSNumber.add (JSNumber.fin (2 ^ 53)) (JSNumber.fin 1) = JSNumber.fin (2 ^ 53) := by
  have hlim := pow53_lt_limit
  have habs : ((2 : Int) ^ 53 + 1).natAbs = 2 ^ 53 + 1 := by norm_num
  have hnot : ¬ 1 <<< 1024 ≤ 2 ^ 53 := by omega
  have hpos : ¬ ((2 : Int) ^ 53 + 1 < 0) := by norm_num
  simp only [JSNumber.add, toNumber, habs, roundNat_pow53_succ, hnot, hpos, if_false]
  norm_num

/-- Once the loop variable is `2^53` and the end of the span is not below it,
the span loop never ends. -/
theorem spanLoop_stuck (totalPages : Nat) {e : JSNumber}
    (he : JSNumber.le (JSNumber.fin (2 ^ 53)) e = true) :
    ∀ (fuel : Nat) (pages : List Int),
      spanLoop totalPages e fuel (JSNumber.fin (2 ^ 53)) pages = none := by
  intro fuel
  induction fuel with
  | zero =>
    intro pages
    simp only [spanLoop, he, if_true]
  | succ fuel ih =>
    intro pages
    simp only [spanLoop, he, if_true, add_one_pow53]
    exact ih _

/-! ## The range parser: statements -/

theorem data_span_string (a b : Nat) :
    (toString a ++ "-" ++ toString b).data = Nat.toDigits 10 a ++ '-' :: Nat.toDigits 10 b := by
  simp only [String.data_append, List.append_assoc]
  rfl

theorem split_comma_text {t : Token} (hwf : t.wellFormed) : split ',' t.text = [t.text] := by
  apply split_of_not_mem
  cases t with
  | page n => exact not_mem_decimal hwf (by decide)
  | span a b =>
    simp only [Token.text, List.mem_append, List.mem_cons, not_or]
    exact ⟨not_mem_decimal hwf.1 (by decide), by decide, not_mem_decimal hwf.2 (by decide)⟩

/-- C1. For `1 <= a <= b <= totalPages` (a page count, at most `2^53 - 1`) and
enough fuel for the `b - a + 1` rounds of the loop, `expandRange` applied to
the decimal numeral of `a`, a hyphen and the decimal numeral of `b` returns
exactly the list `[a-1, a, ..., b-1]` of `b - a + 1` indices. -/
theorem expandRange_span (totalPages a b fuel : Nat) (hsafe : totalPages ≤ maxSafeInteger)
    (ha : 1 ≤ a) (hab : a ≤ b) (hb : b ≤ totalPages) (hfuel : b - a < fuel) :
    expandRange totalPages fuel (toString a ++ "-" ++ toString b) =
      some (List.map Int.ofNat (List.range' (a - 1) (b - a + 1))) := by
  have hda := toDigits_spec a
  have hdb := toDigits_spec b
  have hwf : (Token.span (Nat.toDigits 10 a) (Nat.toDigits 10 b)).wellFormed := ⟨hda.1, hdb.1⟩
  have hmap : (split ',' (toString a ++ "-" ++ toString b).data).map trim =
      [Token.span (Nat.toDigits 10 a) (Nat.toDigits 10 b)].map Token.text := by
    rw [data_span_string]
    have hsplit := split_comma_text hwf
    simp only [Token.text] at hsplit
    have htrim := trim_text hwf
    simp only [Token.text] at htrim
    simp only [hsplit, List.map_cons, List.map_nil, htrim, Token.text]
  have hall : ∀ t ∈ [Token.span (Nat.toDigits 10 a) (Nat.toDigits 10 b)],
      t.wellFormed ∧ t.safe ∧ t.cost ≤ fuel := by
    intro t ht
    rw [List.mem_singleton] at ht
    subst ht
    refine ⟨hwf, ?_, ?_⟩
    · simp only [Token.safe, hdb.2]
      omega
    · simp only [Token.cost, hda.2, hdb.2]
      omega
  obtain ⟨out, hout⟩ := expandRange_isSome totalPages fuel _ _ hall hmap
  rw [hout]
  congr 1
  apply eq_of_sorted_of_mem (sorted_expandRange hout)
  · show List.Pairwise _ _
    rw [List.pairwise_map]
    exact (List.pairwise_lt_range' (a - 1) (b - a + 1)).imp
      (fun hxy => Int.ofNat_lt.2 hxy)
  · intro k
    rw [mem_expandRange hsafe hout k,
      parts_tokens hsafe k _ _ (fun t ht => (hall t ht).1) hmap]
    simp only [List.mem_singleton, exists_eq_left, Token.names, hda.2, hdb.2, List.mem_map,
      List.mem_range'_1]
    constructor
    · rintro ⟨h1, h2, h3, h4⟩
      exact ⟨k.toNat, ⟨by omega, by omega⟩, Int.toNat_of_nonneg h1⟩
    · rintro ⟨n, ⟨hn1, hn2⟩, hk⟩
      have hk1 : (n : Int) = k := hk
      clear hk
      exact ⟨by omega, by omega, by omega, by omega⟩

/-- Witness of C1: the span `2-4` of a 10-page document. -/
theorem expandRange_span_witness :
    expandRange 10 5 (toString 2 ++ "-" ++ toString 4) = some [1, 2, 3] :=
  expandRange_span 10 2 4 5 (by decide) (by decide) (by decide) (by decide) (by decide)

/-- C2. Whatever the input string and the page count, the list that
`expandRange` returns is strictly increasing, and so has no duplicates. -/
theorem expandRange_strictly_increasing (totalPages fuel : Nat) (rangeStr : String)
    (out : List Int) (hrun : expandRange totalPages fuel rangeStr = some out) :
    out.Sorted (fun a b => a < b) ∧ out.Nodup :=
  ⟨sorted_expandRange hrun, (sorted_expandRange hrun).nodup⟩

/-- Witness of C2: `expandRange("2,1,2")` on 5 pages is `[0, 1]`. -/
theorem expandRange_strictly_increasing_witness :
    expandRange 5 0 "2,1,2" = some [0, 1] ∧
      ([0, 1] : List Int).Sorted (fun a b => a < b) ∧ ([0, 1] : List Int).Nodup :=
  ⟨by decide, expandRange_strictly_increasing 5 0 "2,1,2" [0, 1] (by decide)⟩

/-- C3 (the code departs from it). On the expression
`9007199254740992-9007199254740994` the loop of `expandRange` never ends,
whatever the page count: the loop variable starts at `2^53`, where `i++`
leaves it unchanged, below the end of the span.  So `expandRange` does not
return on every input string. -/
theorem expandRange_never_returns (totalPages fuel : Nat) :
    expandRange totalPages fuel "9007199254740992-9007199254740994" = none := by
  have ha : isDecimal "9007199254740992".data := by
    refine ⟨by decide, ?_⟩
    decide
  have hb : isDecimal "9007199254740994".data := by
    refine ⟨by decide, ?_⟩
    decide
  have hva : decimalValue "9007199254740992".data = 2 ^ 53 := by decide
  have hvb : (2 : Int) ^ 53 ≤ (decimalValue "9007199254740994".data : Int) := by decide
  have hsplit : split ',' "9007199254740992-9007199254740994".data =
      ["9007199254740992".data ++ '-' :: "9007199254740994".data] := by decide
  have htrim : trim ("9007199254740992".data ++ '-' :: "9007199254740994".data) =
      "9007199254740992".data ++ '-' :: "9007199254740994".data := by decide
  have hstart : toNumber (decimalValue "9007199254740992".data) = JSNumber.fin (2 ^ 53) := by
    rw [hva]
    exact toNumber_of_le (by norm_num)
  have hend : JSNumber.le (JSNumber.fin (2 ^ 53))
      (toNumber (decimalValue "9007199254740994".data)) = true := by
    rcases toNumber_of_ge hvb with h | ⟨w, hw, h⟩
    · rw [h]
      rfl
    · rw [h]
      simpa [JSNumber.le] using hw
  have hpart := expandPart_span totalPages fuel ha hb htrim []
  rw [hstart, spanLoop_stuck totalPages hend fuel []] at hpart
  unfold expandRange
  rw [hsplit]
  simp only [expandParts]
  rw [hpart]

/-- What holds of the range parser on well-formed expressions, short of
termination.  For an expression whose comma-separated parts are, after
trimming, the texts of well-formed tokens and a page count of at most
`2^53 - 1`: when `expandRange` returns, an index `k` is in its result exactly
when `0 <= k < totalPages` and some token names page `k + 1`; it does return
when every span ends at an exact integer of at most `2^53 - 1` and asks for
no more rounds than the fuel; and no page number lies in a reversed span. -/
theorem expandRange_tokens (totalPages fuel : Nat) (rangeStr : String) (toks : List Token)
    (hsafe : totalPages ≤ maxSafeInteger) (hwf : ∀ t ∈ toks, t.wellFormed)
    (hmap : (split ',' rangeStr.data).map trim = toks.map Token.text) :
    (∀ out, expandRange totalPages fuel rangeStr = some out →
      ∀ k : Int, k ∈ out ↔ 0 ≤ k ∧ k < totalPages ∧ ∃ t ∈ toks, t.names (k + 1)) ∧
    ((∀ t ∈ toks, t.safe ∧ t.cost ≤ fuel) →
      ∃ out, expandRange totalPages fuel rangeStr = some out) ∧
    (∀ a b : List Char, decimalValue b < decimalValue a →
      ∀ p : Int, ¬ (Token.span a b).names p) := by
  refine ⟨?_, ?_, ?_⟩
  · intro out hout k
    rw [mem_expandRange hsafe hout k, parts_tokens hsafe k _ _ hwf hmap]
  · intro hall
    exact expandRange_isSome totalPages fuel rangeStr toks
      (fun t ht => ⟨hwf t ht, hall t ht⟩) hmap
  · intro a b hab p hp
    simp only [Token.names] at hp
    omega

/-- An instance of `expandRange_tokens`: the expression `3, 1-2,5-4` on 5
pages, with a single page, a span and a reversed span. -/
theorem expandRange_tokens_witness :
    expandRange 5 2 "3, 1-2,5-4" = some [0, 1, 2] ∧
      ((1 : Int) ∈ ([0, 1, 2] : List Int) ↔ (0 : Int) ≤ 1 ∧ (1 : Int) < (5 : Nat) ∧
        ∃ t ∈ [Token.page ['3'], Token.span ['1'] ['2'], Token.span ['5'] ['4']],
          t.names (1 + 1)) :=
  ⟨by decide,
    (expandRange_tokens 5 2 "3, 1-2,5-4"
      [Token.page ['3'], Token.span ['1'] ['2'], Token.span ['5'] ['4']] (by decide)
      (by
        intro t ht
        simp only [List.mem_cons, List.mem_singleton, List.not_mem_nil, or_false] at ht
        rcases ht with h | h | h <;> subst h <;> simp [Token.wellFormed, isDecimal])
      (by decide)).1 [0, 1, 2] (by decide) 1⟩

/-! ## Custom ranges -/

/-- Copying pages at indices of the document succeeds and copies them in
order. -/
theorem copyPages_ok (pageCount : Nat) :
    ∀ l : List Int, (∀ k ∈ l, 0 ≤ k ∧ k < pageCount) →
      copyPages pageCount (l.map JSNumber.fin) = Except.ok l := by
  intro l
  induction l with
  | nil =>
    intro _
    rfl
  | cons k rest ih =>
    intro h
    have hk := h k (List.mem_cons_self k rest)
    simp only [List.map_cons, copyPages, hk, and_self, if_true,
      ih (fun x hx => h x (List.mem_cons_of_mem k hx))]

/-- The loop of `splitByCustomRanges`, when it ends, returns one more result
for each range still to do. -/
theorem customLoop_returned {totalPages : Nat} (hsafe : totalPages ≤ maxSafeInteger)
    (fuel count : Nat) :
    ∀ (ranges : List String) (i : Nat) (progress : List ℚ) (results : List SplitResult)
      (run : Run), customLoop totalPages fuel count i ranges progress results = some run →
      ∃ out, run.outcome = Outcome.returned out ∧ out.length = results.length + ranges.length := by
  intro ranges
  induction ranges with
  | nil =>
    intro i progress results run hrun
    simp only [customLoop, Option.some.injEq] at hrun
    exact ⟨results, by rw [← hrun], by simp⟩
  | cons range rest ih =>
    intro i progress results run hrun
    simp only [customLoop] at hrun
    cases hexp : expandRange totalPages fuel range with
    | none => simp [hexp] at hrun
    | some pageIndices =>
      have hcopy := copyPages_ok totalPages pageIndices
        (fun k hk => expandRange_bounds hsafe hexp hk)
      simp only [hexp, hcopy] at hrun
      obtain ⟨out, hout, hlen⟩ := ih _ _ _ _ hrun
      refine ⟨out, hout, ?_⟩
      rw [hlen]
      simp only [List.length_append, List.length_cons, List.length_nil]
      omega

/-- The loop of `splitByCustomRanges` on ranges that all expand to no page:
it returns one result of zero pages for each of them. -/
theorem customLoop_empty (totalPages fuel count : Nat) :
    ∀ (ranges : List String) (i : Nat) (progress : List ℚ) (results : List SplitResult),
      (∀ r ∈ ranges, expandRange totalPages fuel r = some []) →
      ∃ run out, customLoop totalPages fuel count i ranges progress results = some run ∧
        run.outcome = Outcome.returned out ∧ out.length = results.length + ranges.length ∧
        ∀ r ∈ out, r ∈ results ∨ (r.data = [] ∧ r.pageCount = JSNumber.fin 0) := by
  intro ranges
  induction ranges with
  | nil =>
    intro i progress results _
    exact ⟨_, results, rfl, rfl, by simp, fun r hr => Or.inl hr⟩
  | cons range rest ih =>
    intro i progress results hall
    have hexp := hall range (List.mem_cons_self range rest)
    obtain ⟨run, out, hrun, hout, hlen, hres⟩ :=
      ih (i + 1) (progress ++ [((i : ℚ) / (count : ℚ)) * 100])
        (results ++ [{ name := "range_" ++ toString (i + 1) ++ ".pdf", data := [],
                       pageCount := JSNumber.fin 0 }])
        (fun r hr => hall r (List.mem_cons_of_mem range hr))
    refine ⟨run, out, ?_, hout, ?_, ?_⟩
    · simp only [customLoop, hexp, List.map_nil, copyPages, List.length_nil]
      exact hrun
    · rw [hlen]
      simp only [List.length_append, List.length_cons, List.length_nil]
      omega
    · intro r hr
      rcases hres r hr with h | h
      · rw [List.mem_append, List.mem_singleton] at h
        rcases h with h | h
        · exact Or.inl h
        · right
          rw [h]
          exact ⟨rfl, rfl⟩
      · exact Or.inr h

/-- With no non-empty expression left after trimming, `splitByCustomRanges`
fails with `Please specify valid page ranges.` and returns no result. -/
theorem splitByCustomRanges_throws_of_empty (totalPages fuel : Nat) (rangeInputs : List String)
    (hnil : parseCustomRanges rangeInputs = []) :
    splitByCustomRanges totalPages fuel rangeInputs =
      some { progress := [], outcome := Outcome.threw "Please specify valid page ranges." } := by
  simp [splitByCustomRanges, hnil]

/-- C5 (the code departs from it). With no non-empty expression left, as on
the inputs made of two blanks and of nothing, `splitByCustomRanges` fails
with `Please specify valid page ranges.`.  But on a 5-page document the
expressions `9-10` and `7` both expand to no page, and `splitByCustomRanges`
does not fail: it reports progress and returns two results of zero pages. -/
theorem splitByCustomRanges_all_empty_returns :
    splitByCustomRanges 5 2 ["  ", ""] =
        some { progress := [], outcome := Outcome.threw "Please specify valid page ranges." } ∧
      (∀ r ∈ parseCustomRanges ["9-10", "7"], expandRange 5 2 r = some []) ∧
      splitByCustomRanges 5 2 ["9-10", "7"] =
        some { progress := [0, 50],
               outcome := Outcome.returned
                [{ name := "range_1.pdf", data := [], pageCount := JSNumber.fin 0 },
                 { name := "range_2.pdf", data := [], pageCount := JSNumber.fin 0 }] } := by
  decide!

/-! ## A single range -/

/-- The loop of `splitByRange` from `x` up to an exact end `e`: within `e - x`
rounds it has pushed the indices `x, ..., e - 1`. -/
theorem rangeLoop_spec {e : Nat} (he : e ≤ maxSafeInteger) :
    ∀ (fuel x : Nat) (pageIndices : List JSNumber), x ≤ e → e - x ≤ fuel →
      rangeLoop (JSNumber.fin e) fuel (JSNumber.fin x) pageIndices =
        some (pageIndices ++ (List.range' x (e - x)).map (fun n => JSNumber.fin (Int.ofNat n))) := by
  rw [maxSafeInteger_eq] at he
  intro fuel
  induction fuel with
  | zero =>
    intro x pageIndices hx hfuel
    have hxe : e - x = 0 := by omega
    have hlt : JSNumber.lt (JSNumber.fin x) (JSNumber.fin e) = false := by
      simp only [JSNumber.lt, decide_eq_false_iff_not]
      omega
    simp [rangeLoop, hlt, hxe]
  | succ fuel ih =>
    intro x pageIndices hx hfuel
    by_cases hlt : (x : Int) < e
    · have hstep : JSNumber.add (JSNumber.fin x) (JSNumber.fin 1) =
          JSNumber.fin ((x + 1 : Nat) : Int) := by
        simp only [JSNumber.add]
        rw [toNumber_of_le (by omega)]
        simp
      have hsucc : e - x = (e - (x + 1)) + 1 := by omega
      simp only [rangeLoop, JSNumber.lt, hlt, decide_True, if_true, hstep]
      rw [ih (x + 1) _ (by omega) (by omega), hsucc, List.range'_succ]
      simp only [List.map_cons, List.append_assoc, List.singleton_append]
      rfl
    · have hxe : e - x = 0 := by omega
      simp [rangeLoop, JSNumber.lt, hlt, hxe]

theorem copyPages_range (pageCount x n : Nat) (h : x + n ≤ pageCount) :
    copyPages pageCount ((List.range' x n).map (fun k => JSNumber.fin (Int.ofNat k))) =
      Except.ok (List.map Int.ofNat (List.range' x n)) := by
  have hmap : (List.range' x n).map (fun k => JSNumber.fin (Int.ofNat k)) =
      (List.map Int.ofNat (List.range' x n)).map JSNumber.fin := by
    rw [List.map_map]
    rfl
  rw [hmap]
  apply copyPages_ok
  intro k hk
  rw [List.mem_map] at hk
  obtain ⟨m, hm, hmk⟩ := hk
  rw [List.mem_range'_1] at hm
  subst hmk
  constructor
  · exact Int.ofNat_nonneg m
  · exact Int.ofNat_lt.2 (by omega)

theorem numberToString_nat (shortest : Int → String) {n : Nat} (h : n ≤ maxSafeInteger) :
    numberToString shortest (JSNumber.fin n) = toString n := by
  rw [maxSafeInteger_eq] at h
  have h1 : n ≤ 2 ^ 53 := by omega
  have h2 : ¬ ((n : Int) < 0) := by omega
  simp only [numberToString, Int.natAbs_ofNat, h1, h2, if_true, if_false]

/-- C6. For `1 <= start <= end <= totalPages` (a page count, at most
`2^53 - 1`) and enough fuel for the loop, `splitByRange` reports progress 25,
50, 75, 100 and returns exactly one result, named `pages_{start}-{end}.pdf`,
built from the indices `[start-1, ..., end-1]` in ascending order, whose
`pageCount` is `end - start + 1`, the number of those indices. -/
theorem splitByRange_spec (shortest : Int → String) (totalPages fuel startPage endPage : Nat)
    (hsafe : totalPages ≤ maxSafeInteger) (hstart : 1 ≤ startPage) (hle : startPage ≤ endPage)
    (hend : endPage ≤ totalPages) (hfuel : endPage - startPage < fuel) :
    splitByRange shortest totalPages fuel
        { startPage := JSNumber.fin startPage, endPage := JSNumber.fin endPage } =
      some { progress := [25, 50, 75, 100],
             outcome := Outcome.returned
              [{ name := "pages_" ++ toString startPage ++ "-" ++ toString endPage ++ ".pdf",
                 data := List.map Int.ofNat (List.range' (startPage - 1) (endPage - startPage + 1)),
                 pageCount := JSNumber.fin (Int.ofNat (endPage - startPage + 1)) }] } ∧
    (List.map Int.ofNat (List.range' (startPage - 1) (endPage - startPage + 1))).length =
      endPage - startPage + 1 := by
  have hmax := maxSafeInteger_eq
  have hsub : JSNumber.sub (JSNumber.fin startPage) (JSNumber.fin 1) =
      JSNumber.fin ((startPage - 1 : Nat) : Int) := by
    simp only [JSNumber.sub, JSNumber.neg, JSNumber.add]
    rw [toNumber_of_lt (by omega)]
    congr 1
    omega
  have hcount : JSNumber.add (JSNumber.sub (JSNumber.fin endPage) (JSNumber.fin startPage))
      (JSNumber.fin 1) = JSNumber.fin (Int.ofNat (endPage - startPage + 1)) := by
    simp only [JSNumber.sub, JSNumber.neg, JSNumber.add]
    rw [toNumber_of_lt (by omega)]
    simp only [JSNumber.add]
    rw [toNumber_of_lt (by omega)]
    congr 1
    simp only [Int.ofNat_eq_coe]
    omega
  have hlen : endPage - (startPage - 1) = endPage - startPage + 1 := by omega
  have hloop := rangeLoop_spec (le_trans hend hsafe) fuel (startPage - 1) [] (by omega) (by omega)
  rw [hlen, List.nil_append] at hloop
  refine ⟨?_, by simp⟩
  simp only [splitByRange, hsub, hloop,
    copyPages_range totalPages (startPage - 1) (endPage - startPage + 1) (by omega), hcount,
    numberToString_nat shortest (le_trans (le_trans hle hend) hsafe),
    numberToString_nat shortest (le_trans hend hsafe)]

/-- Witness of C6: pages 2 to 4 of a 10-page document. -/
theorem splitByRange_spec_witness :
    splitByRange (fun _ => "") 10 3 { startPage := JSNumber.fin 2, endPage := JSNumber.fin 4 } =
      some { progress := [25, 50, 75, 100],
             outcome := Outcome.returned
              [{ name := "pages_2-4.pdf", data := [1, 2, 3], pageCount := JSNumber.fin 3 }] } ∧
      ([1, 2, 3] : List Int).length = 3 :=
  splitByRange_spec (fun _ => "") 10 3 2 4 (by decide) (by decide) (by decide) (by decide)
    (by decide)

/-! ## The page fields -/

/-- C7 (the code departs from it). On a 10-page document the field values
`(20, 10)`, reached by typing 20 into the start field, become `(20, 20)`, and
`(20, 30)` become `(20, 10)`: the start is never compared with the page
count, so it stays above it.  The values `(0, 0)` become `(1, 0)`, and
`(7, 3)` on 5 pages become `(7, 7)`: the tests read the values found at
entry, not the values just written. -/
theorem updatePageInputs_not_clamped :
    updatePageInputs 10 { startPage := JSNumber.fin 20, endPage := JSNumber.fin 10 } =
        { startPage := JSNumber.fin 20, endPage := JSNumber.fin 20 } ∧
      updatePageInputs 10 { startPage := JSNumber.fin 20, endPage := JSNumber.fin 30 } =
        { startPage := JSNumber.fin 20, endPage := JSNumber.fin 10 } ∧
      updatePageInputs 10 { startPage := JSNumber.fin 0, endPage := JSNumber.fin 0 } =
        { startPage := JSNumber.fin 1, endPage := JSNumber.fin 0 } ∧
      updatePageInputs 5 { startPage := JSNumber.fin 7, endPage := JSNumber.fin 3 } =
        { startPage := JSNumber.fin 7, endPage := JSNumber.fin 7 } := by
  decide

/-! ## The page order -/

/-- A list is its entry at a position put back into the list without it. -/
theorem perm_cons_eraseIdx {α : Type} (l : List α) (d : Nat) (hd : d < l.length) :
    (l.get ⟨d, hd⟩ :: l.eraseIdx d).Perm l := by
  have hsplit : l = l.take d ++ l.get ⟨d, hd⟩ :: l.drop (d + 1) := by
    conv_lhs => rw [← List.take_append_drop d l, List.drop_eq_getElem_cons hd]
    rfl
  rw [List.eraseIdx_eq_take_drop_succ]
  conv_rhs => rw [hsplit]
  exact List.perm_middle.symm

/-- The move of `reorderPages` between two positions of a page order: the
moved page ends at the target position, the other pages keep their order,
and the result is a rearrangement of the page order. -/
theorem reorderPages_move (pageOrder : List Nat) (draggedIndex targetIndex : Nat)
    (hd : draggedIndex < pageOrder.length) (ht : targetIndex < pageOrder.length) :
    ∃ moved, reorderPages pageOrder draggedIndex targetIndex = some moved ∧
      moved.length = pageOrder.length ∧
      moved.get? targetIndex = pageOrder.get? draggedIndex ∧
      moved.eraseIdx targetIndex = pageOrder.eraseIdx draggedIndex ∧
      moved.Perm pageOrder := by
  have hget : pageOrder.get? draggedIndex = some (pageOrder.get ⟨draggedIndex, hd⟩) :=
    List.get?_eq_get hd
  have hrest : (pageOrder.eraseIdx draggedIndex).length = pageOrder.length - 1 := by
    rw [List.length_eraseIdx, if_pos hd]
  have htake : ((pageOrder.eraseIdx draggedIndex).take targetIndex).length = targetIndex :=
    List.length_take_of_le (by omega)
  refine ⟨(pageOrder.eraseIdx draggedIndex).take targetIndex ++
      pageOrder.get ⟨draggedIndex, hd⟩ :: (pageOrder.eraseIdx draggedIndex).drop targetIndex,
    ?_, ?_, ?_, ?_, ?_⟩
  · simp only [reorderPages, hget]
  · simp only [List.length_append, List.length_cons, List.length_drop, htake, hrest]
    omega
  · rw [hget, List.get?_eq_getElem?, List.getElem?_append_right (by omega), htake,
      Nat.sub_self]
    simp
  · rw [List.eraseIdx_append_of_length_le (by omega), htake, Nat.sub_self]
    simp only [List.eraseIdx_cons_zero, List.take_append_drop]
  · refine List.perm_middle.trans ?_
    rw [List.take_append_drop]
    exact perm_cons_eraseIdx pageOrder draggedIndex hd

/-- C8. In every reachable state the page order is a rearrangement of
`[1, ..., totalPages]`: its length is `totalPages`, it has no duplicate, and
it holds exactly the page numbers from 1 to `totalPages`; and right after a
successful load it is `[1, 2, ..., totalPages]`. -/
theorem pageOrder_permutation (c : Cutter) (h : Reachable c) :
    c.pageOrder.Perm (List.range' 1 c.totalPages) ∧
      c.pageOrder.length = c.totalPages ∧ c.pageOrder.Nodup ∧
      (∀ p, p ∈ c.pageOrder ↔ 1 ≤ p ∧ p ≤ c.totalPages) ∧
      ∀ numPages, (c.loadPDF numPages).pageOrder = List.range' 1 numPages ∧
        (c.loadPDF numPages).totalPages = numPages := by
  have hload : ∀ (c0 : Cutter) (numPages : Nat),
      (c0.loadPDF numPages).pageOrder = List.range' 1 numPages := by
    intro c0 numPages
    rw [List.range'_eq_map_range]
    simp only [Cutter.loadPDF]
    apply List.map_congr_left
    intro x _
    omega
  have hperm : c.pageOrder.Perm (List.range' 1 c.totalPages) := by
    induction h with
    | init => exact List.Perm.refl _
    | loadPDF c0 numPages _ _ =>
      rw [hload]
      exact List.Perm.refl _
    | reorderPages c0 c1 draggedIndex targetIndex _ hd ht hmove ih =>
      have hlen : c0.pageOrder.length = c0.totalPages := by
        rw [ih.length_eq, List.length_range']
      obtain ⟨moved, hmoved, _, _, _, hp⟩ :=
        reorderPages_move c0.pageOrder draggedIndex targetIndex (by omega) (by omega)
      simp only [Cutter.reorderPages, hmoved, Option.some.injEq] at hmove
      rw [← hmove]
      exact hp.trans ih
    | removeFile c0 _ _ => exact List.Perm.refl _
    | resetApplication c0 _ _ => exact List.Perm.refl _
  refine ⟨hperm, ?_, ?_, ?_, ?_⟩
  · rw [hperm.length_eq, List.length_range']
  · exact hperm.nodup_iff.2 (List.nodup_range' 1 c.totalPages)
  · intro p
    rw [hperm.mem_iff, List.mem_range'_1]
    omega
  · intro numPages
    exact ⟨hload c numPages, rfl⟩

/-- Witness of C8: a 4-page document loaded, then page position 0 moved to
position 2. -/
theorem pageOrder_permutation_witness :
    ([2, 3, 1, 4] : List Nat).Perm (List.range' 1 4) ∧
      ([2, 3, 1, 4] : List Nat).length = 4 ∧ ([2, 3, 1, 4] : List Nat).Nodup ∧
      (∀ p, p ∈ ([2, 3, 1, 4] : List Nat) ↔ 1 ≤ p ∧ p ≤ 4) ∧
      ∀ numPages,
        (Cutter.loadPDF { pdfDoc := true, totalPages := 4, pageOrder := [2, 3, 1, 4] }
            numPages).pageOrder = List.range' 1 numPages ∧
          (Cutter.loadPDF { pdfDoc := true, totalPages := 4, pageOrder := [2, 3, 1, 4] }
            numPages).totalPages = numPages :=
  pageOrder_permutation { pdfDoc := true, totalPages := 4, pageOrder := [2, 3, 1, 4] }
    (Reachable.reorderPages (Cutter.init.loadPDF 4) _ 0 2
      (Reachable.loadPDF Cutter.init 4 Reachable.init) (by decide) (by decide) (by decide))

/-- C9. For positions `draggedIndex` and `targetIndex` of a page order,
`reorderPages` removes the page at `draggedIndex` and puts it back so that it
is at `targetIndex`; the other pages keep their relative order (removing the
moved page from the result gives the page order without it), and the result
has the same length and the same elements as before. -/
theorem reorderPages_spec (pageOrder : List Nat) (draggedIndex targetIndex : Nat)
    (hd : draggedIndex < pageOrder.length) (ht : targetIndex < pageOrder.length) :
    ∃ moved, reorderPages pageOrder draggedIndex targetIndex = some moved ∧
      moved.length = pageOrder.length ∧
      moved.get? targetIndex = pageOrder.get? draggedIndex ∧
      moved.eraseIdx targetIndex = pageOrder.eraseIdx draggedIndex ∧
      moved.Perm pageOrder ∧ ∀ p, p ∈ moved ↔ p ∈ pageOrder := by
  obtain ⟨moved, h1, h2, h3, h4, h5⟩ :=
    reorderPages_move pageOrder draggedIndex targetIndex hd ht
  exact ⟨moved, h1, h2, h3, h4, h5, fun p => h5.mem_iff⟩

/-- Witness of C9: `[1,2,3,4]` with position 0 moved to position 2 becomes
`[2,3,1,4]`. -/
theorem reorderPages_spec_witness :
    reorderPages [1, 2, 3, 4] 0 2 = some [2, 3, 1, 4] ∧
      ∃ moved, reorderPages [1, 2, 3, 4] 0 2 = some moved ∧
        moved.length = [1, 2, 3, 4].length ∧
        moved.get? 2 = [1, 2, 3, 4].get? 0 ∧
        moved.eraseIdx 2 = [1, 2, 3, 4].eraseIdx 0 ∧
        moved.Perm [1, 2, 3, 4] ∧ ∀ p, p ∈ moved ↔ p ∈ [1, 2, 3, 4] :=
  ⟨by decide, reorderPages_spec [1, 2, 3, 4] 0 2 (by decide) (by decide)⟩

/-! ## Single pages -/

/-- The loop of `splitToSinglePages` over page indices of the document: it
reports `(i / totalPages) * 100` before each page `i` and returns one result
for each, built from that page alone. -/
theorem singleLoop_spec (totalPages : Nat) :
    ∀ (todo : List Nat) (progress : List ℚ) (results : List SplitResult),
      (∀ i ∈ todo, i < totalPages) →
      singleLoop totalPages todo progress results =
        { progress := progress ++ todo.map (fun i : Nat => ((i : ℚ) / (totalPages : ℚ)) * 100),
          outcome := Outcome.returned
            (results ++ todo.map (fun i =>
              { name := "page_" ++ toString (i + 1) ++ ".pdf", data := [Int.ofNat i],
                pageCount := JSNumber.fin 1 })) } := by
  intro todo
  induction todo with
  | nil =>
    intro progress results _
    simp [singleLoop]
  | cons i rest ih =>
    intro progress results h
    have hi : (i : Int) < totalPages := Int.ofNat_lt.2 (h i (List.mem_cons_self i rest))
    have h0 : (0 : Int) ≤ i := Int.ofNat_nonneg i
    simp only [singleLoop, copyPages, h0, hi, and_self, if_true]
    rw [ih _ _ (fun j hj => h j (List.mem_cons_of_mem i hj))]
    simp only [List.map_cons, List.append_assoc, List.singleton_append]
    rfl

/-- The method `splitToSinglePages` reports the percentages
`(i / totalPages) * 100` for `i = 0, ..., totalPages - 1`, and returns one
single-page result for each page in ascending order. -/
theorem splitToSinglePages_eq (totalPages : Nat) :
    splitToSinglePages totalPages =
      { progress := (List.range totalPages).map (fun i : Nat => ((i : ℚ) / (totalPages : ℚ)) * 100),
        outcome := Outcome.returned
          ((List.range totalPages).map (fun i =>
            { name := "page_" ++ toString (i + 1) ++ ".pdf", data := [Int.ofNat i],
              pageCount := JSNumber.fin 1 })) } := by
  rw [splitToSinglePages, singleLoop_spec totalPages _ _ _ (fun i hi => List.mem_range.1 hi)]
  simp

/-- Every percentage that `splitToSinglePages` reports is below 100: the
method never reports the end of its work. -/
theorem splitToSinglePages_progress_lt (totalPages : Nat) :
    ∀ q ∈ (splitToSinglePages totalPages).progress, 0 ≤ q ∧ q < 100 := by
  intro q hq
  rw [splitToSinglePages_eq] at hq
  simp only [List.mem_map, List.mem_range] at hq
  obtain ⟨i, hi, hq⟩ := hq
  have hpos : (0 : ℚ) < (totalPages : ℚ) := by
    exact_mod_cast (Nat.lt_of_le_of_lt (Nat.zero_le i) hi)
  have hlt : (i : ℚ) < (totalPages : ℚ) := by exact_mod_cast hi
  have h0 : (0 : ℚ) ≤ (i : ℚ) := by exact_mod_cast Nat.zero_le i
  rw [← hq]
  constructor
  · exact mul_nonneg (div_nonneg h0 hpos.le) (by norm_num)
  · have h1 : (i : ℚ) / (totalPages : ℚ) < 1 := (div_lt_one hpos).2 hlt
    linarith

/-! ## Progress -/

/-- C10 (the code departs from it). Splitting a 2-page document into single
pages reports the percentages 0, 0, 50 and then returns its two results:
the last percentage is 50, not 100.  The same holds for custom ranges: two
ranges report 0, 0, 50.  Only the single-range and reorder modes end on 100. -/
theorem splitPDF_progress_ends_below_100 :
    splitPDF (fun _ => "") (Cutter.init.loadPDF 2) 0 SplitOption.single
        { startPage := JSNumber.fin 1, endPage := JSNumber.fin 2 } [] =
      some { progress := [0, 0, 50],
             outcome := Outcome.returned
              [{ name := "page_1.pdf", data := [0], pageCount := JSNumber.fin 1 },
               { name := "page_2.pdf", data := [1], pageCount := JSNumber.fin 1 }] } ∧
    splitPDF (fun _ => "") (Cutter.init.loadPDF 2) 1 SplitOption.custom
        { startPage := JSNumber.fin 1, endPage := JSNumber.fin 2 } ["1", "2"] =
      some { progress := [0, 0, 50],
             outcome := Outcome.returned
              [{ name := "range_1.pdf", data := [0], pageCount := JSNumber.fin 1 },
               { name := "range_2.pdf", data := [1], pageCount := JSNumber.fin 1 }] } ∧
    splitPDF (fun _ => "") (Cutter.init.loadPDF 2) 2 SplitOption.range
        { startPage := JSNumber.fin 1, endPage := JSNumber.fin 2 } [] =
      some { progress := [0, 25, 50, 75, 100],
             outcome := Outcome.returned
              [{ name := "pages_1-2.pdf", data := [0, 1], pageCount := JSNumber.fin 2 }] } := by
  decide!

/-! ## Single pages: the results -/

/-- C12. For every page count `n` (in particular `n >= 1`),
`splitToSinglePages` returns exactly `n` results in ascending page order: the
result at position `i` (0-based) is named `page_{i+1}.pdf`, is built from the
single source index `[i]` and has `pageCount` 1; so each source page `k` is in
the result at position `k` and in no other. -/
theorem splitToSinglePages_results (n : Nat) :
    ∃ results, (splitToSinglePages n).outcome = Outcome.returned results ∧
      results.length = n ∧
      (∀ i, i < n → results.get? i =
        some { name := "page_" ++ toString (i + 1) ++ ".pdf", data := [Int.ofNat i],
               pageCount := JSNumber.fin 1 }) ∧
      (∀ k, k < n → ∀ j r, results.get? j = some r → (Int.ofNat k ∈ r.data ↔ j = k)) := by
  refine ⟨_, by rw [splitToSinglePages_eq], by simp, ?_, ?_⟩
  · intro i hi
    rw [List.get?_eq_getElem?, List.getElem?_map, List.getElem?_range hi]
    rfl
  · intro k _ j r hj
    rw [List.get?_eq_getElem?, List.getElem?_map] at hj
    cases hjr : (List.range n)[j]? with
    | none => simp [hjr] at hj
    | some m =>
      have hm : m = j := by
        rw [List.getElem?_eq_some] at hjr
        obtain ⟨hlt, hget⟩ := hjr
        rw [← hget]
        simp
      simp only [hjr, Option.map_some', Option.some.injEq] at hj
      rw [← hj, hm]
      simp only [List.mem_singleton]
      constructor
      · intro h
        exact (Int.ofNat_inj.1 h).symm
      · intro h
        rw [h]

/-- Witness of C12: a 3-page document gives the index lists `[0]`, `[1]`,
`[2]`. -/
theorem splitToSinglePages_results_witness :
    (splitToSinglePages 3).outcome = Outcome.returned
        [{ name := "page_1.pdf", data := [0], pageCount := JSNumber.fin 1 },
         { name := "page_2.pdf", data := [1], pageCount := JSNumber.fin 1 },
         { name := "page_3.pdf", data := [2], pageCount := JSNumber.fin 1 }] ∧
      ∃ results, (splitToSinglePages 3).outcome = Outcome.returned results ∧
        results.length = 3 ∧
        (∀ i, i < 3 → results.get? i =
          some { name := "page_" ++ toString (i + 1) ++ ".pdf", data := [Int.ofNat i],
                 pageCount := JSNumber.fin 1 }) ∧
        (∀ k, k < 3 → ∀ j r, results.get? j = some r → (Int.ofNat k ∈ r.data ↔ j = k)) :=
  ⟨by decide, splitToSinglePages_results 3⟩

/-! ## Reordered pages -/

/-- The page numbers `1, ..., n`, each lowered by one, are the indices
`0, ..., n - 1`. -/
theorem map_pred_range (n : Nat) :
    (List.range' 1 n).map (fun p : Nat => (p : Int) - 1) = (List.range n).map Int.ofNat := by
  rw [List.range'_eq_map_range, List.map_map]
  apply List.map_congr_left
  intro x _
  simp

/-- C13. For a page order that is a permutation of `[1, ..., totalPages]`,
`splitByReorder` reports progress 25, 50, 75, 100 and returns exactly one
result, named `reordered_pages.pdf`, built from the indices `p - 1` for `p`
in the page order, in that order, with `pageCount` equal to `totalPages`;
those indices are a permutation of `[0, ..., totalPages - 1]`, so that every
source page is copied exactly once and no index is out of range. -/
theorem splitByReorder_spec (c : Cutter)
    (hperm : c.pageOrder.Perm (List.range' 1 c.totalPages)) :
    splitByReorder c =
        { progress := [25, 50, 75, 100],
          outcome := Outcome.returned
            [{ name := "reordered_pages.pdf",
               data := c.pageOrder.map (fun p : Nat => (p : Int) - 1),
               pageCount := JSNumber.fin (Int.ofNat c.totalPages) }] } ∧
      (c.pageOrder.map (fun p : Nat => (p : Int) - 1)).Perm
        ((List.range c.totalPages).map Int.ofNat) ∧
      (∀ k : Nat, k < c.totalPages →
        (c.pageOrder.map (fun p : Nat => (p : Int) - 1)).count (Int.ofNat k) = 1) ∧
      ∀ z ∈ c.pageOrder.map (fun p : Nat => (p : Int) - 1), 0 ≤ z ∧ z < c.totalPages := by
  have hidx : (c.pageOrder.map (fun p : Nat => (p : Int) - 1)).Perm
      ((List.range c.totalPages).map Int.ofNat) := by
    rw [← map_pred_range]
    exact hperm.map _
  have hbound : ∀ z ∈ c.pageOrder.map (fun p : Nat => (p : Int) - 1),
      0 ≤ z ∧ z < c.totalPages := by
    intro z hz
    rw [hidx.mem_iff, List.mem_map] at hz
    obtain ⟨m, hm, hmz⟩ := hz
    rw [List.mem_range] at hm
    rw [← hmz]
    exact ⟨Int.ofNat_nonneg m, Int.ofNat_lt.2 hm⟩
  have hlen : c.pageOrder.length = c.totalPages := by
    rw [hperm.length_eq, List.length_range']
  have hcopy : copyPages c.totalPages
      (c.pageOrder.map (fun pageNum : Nat => JSNumber.fin ((pageNum : Int) - 1))) =
      Except.ok (c.pageOrder.map (fun p : Nat => (p : Int) - 1)) := by
    have hmap : c.pageOrder.map (fun pageNum : Nat => JSNumber.fin ((pageNum : Int) - 1)) =
        (c.pageOrder.map (fun p : Nat => (p : Int) - 1)).map JSNumber.fin := by
      rw [List.map_map]
      rfl
    rw [hmap]
    exact copyPages_ok c.totalPages _ hbound
  refine ⟨?_, hidx, ?_, hbound⟩
  · simp only [splitByReorder, hcopy, hlen]
    rfl
  · intro k hk
    rw [hidx.count_eq]
    have hnd : ((List.range c.totalPages).map Int.ofNat).Nodup :=
      (List.nodup_range c.totalPages).map (fun a b hab => Int.ofNat_inj.1 hab)
    exact List.count_eq_one_of_mem hnd (List.mem_map.2 ⟨k, List.mem_range.2 hk, rfl⟩)

/-- Witness of C13: the page order `[2, 3, 1, 4]` of a 4-page document is
copied from the indices `[1, 2, 0, 3]`. -/
theorem splitByReorder_spec_witness :
    splitByReorder { pdfDoc := true, totalPages := 4, pageOrder := [2, 3, 1, 4] } =
        { progress := [25, 50, 75, 100],
          outcome := Outcome.returned
            [{ name := "reordered_pages.pdf", data := [1, 2, 0, 3],
               pageCount := JSNumber.fin 4 }] } ∧
      ([1, 2, 0, 3] : List Int).Perm [0, 1, 2, 3] :=
  ⟨(splitByReorder_spec { pdfDoc := true, totalPages := 4, pageOrder := [2, 3, 1, 4] }
      (by decide)).1,
    (splitByReorder_spec { pdfDoc := true, totalPages := 4, pageOrder := [2, 3, 1, 4] }
      (by decide)).2.1⟩

/-! ## Custom ranges: the results -/

/-- The loop of `splitByCustomRanges` from index `i` on, over ranges whose
expansions all return: it reports `(j / count) * 100` before the range at
index `j` and returns one more result for each range, named after its
1-based position and built from its expansion. -/
theorem customLoop_spec {totalPages : Nat} (hsafe : totalPages ≤ maxSafeInteger)
    (fuel count : Nat) :
    ∀ (ranges : List String) (expansions : List (List Int)) (i : Nat) (progress : List ℚ)
      (results : List SplitResult),
      List.Forall₂ (fun r e => expandRange totalPages fuel r = some e) ranges expansions →
      customLoop totalPages fuel count i ranges progress results =
        some { progress := progress ++
                 (List.range' i ranges.length).map (fun j : Nat => ((j : ℚ) / (count : ℚ)) * 100),
               outcome := Outcome.returned
                 (results ++ (expansions.enumFrom i).map (fun p =>
                   { name := "range_" ++ toString (p.1 + 1) ++ ".pdf", data := p.2,
                     pageCount := JSNumber.fin (Int.ofNat p.2.length) })) } := by
  intro ranges
  induction ranges with
  | nil =>
    intro expansions i progress results hexp
    cases hexp
    simp [customLoop]
  | cons range rest ih =>
    intro expansions i progress results hexp
    cases hexp with
    | cons hhead htail =>
      rename_i e es
      have hcopy := copyPages_ok totalPages e (fun k hk => expandRange_bounds hsafe hhead hk)
      simp only [customLoop, hhead, hcopy]
      rw [ih es (i + 1) _ _ htail]
      simp only [List.length_cons, List.range'_succ, List.map_cons, List.enumFrom_cons,
        List.append_assoc, List.singleton_append]
      rfl

/-- When the loop of `splitByCustomRanges` ends, the expansion of every
range still to do has returned. -/
theorem customLoop_expansions {totalPages : Nat} (hsafe : totalPages ≤ maxSafeInteger)
    (fuel count : Nat) :
    ∀ (ranges : List String) (i : Nat) (progress : List ℚ) (results : List SplitResult)
      (run : Run), customLoop totalPages fuel count i ranges progress results = some run →
      ∃ expansions : List (List Int),
        List.Forall₂ (fun r e => expandRange totalPages fuel r = some e) ranges expansions := by
  intro ranges
  induction ranges with
  | nil =>
    intro i progress results run _
    exact ⟨[], List.Forall₂.nil⟩
  | cons range rest ih =>
    intro i progress results run hrun
    simp only [customLoop] at hrun
    cases hexp : expandRange totalPages fuel range with
    | none => simp [hexp] at hrun
    | some pageIndices =>
      have hcopy := copyPages_ok totalPages pageIndices
        (fun k hk => expandRange_bounds hsafe hexp hk)
      simp only [hexp, hcopy] at hrun
      obtain ⟨es, hes⟩ := ih _ _ _ run hrun
      exact ⟨pageIndices :: es, List.Forall₂.cons hexp hes⟩

/-- Expansions that each return can be collected into one list. -/
theorem expansions_exist (totalPages fuel : Nat) :
    ∀ ranges : List String, (∀ r ∈ ranges, ∃ e, expandRange totalPages fuel r = some e) →
      ∃ expansions : List (List Int),
        List.Forall₂ (fun r e => expandRange totalPages fuel r = some e) ranges expansions := by
  intro ranges
  induction ranges with
  | nil =>
    intro _
    exact ⟨[], List.Forall₂.nil⟩
  | cons range rest ih =>
    intro h
    obtain ⟨e, he⟩ := h range (List.mem_cons_self range rest)
    obtain ⟨es, hes⟩ := ih (fun r hr => h r (List.mem_cons_of_mem range hr))
    exact ⟨e :: es, List.Forall₂.cons he hes⟩

/-- What holds of `splitByCustomRanges` short of termination.  For range
inputs of which `k >= 1` non-empty expressions remain after trimming, and a
page count of at most `2^53 - 1`: when `expandRange` returns on every
expression, `splitByCustomRanges` returns exactly `k` results in the order of
the expressions; the result at 0-based position `i` is named
`range_{i+1}.pdf`, is built from the indices that `expandRange` gives for the
expression at that position, in that order, and its `pageCount` is the
number of those indices.  `expandRange` does return on every expression when
the expressions are made of well-formed tokens whose spans end at exact
integers of at most `2^53 - 1` and ask for no more rounds than the fuel.
Conversely a run that ends is such a run. -/
theorem splitByCustomRanges_results (totalPages fuel : Nat) (rangeInputs : List String)
    (hsafe : totalPages ≤ maxSafeInteger) (hne : parseCustomRanges rangeInputs ≠ []) :
    (∀ expansions : List (List Int),
      List.Forall₂ (fun r e => expandRange totalPages fuel r = some e)
        (parseCustomRanges rangeInputs) expansions →
      ∃ run results, splitByCustomRanges totalPages fuel rangeInputs = some run ∧
        run.outcome = Outcome.returned results ∧
        results.length = (parseCustomRanges rangeInputs).length ∧
        ∀ i e, expansions.get? i = some e →
          results.get? i = some { name := "range_" ++ toString (i + 1) ++ ".pdf", data := e,
                                  pageCount := JSNumber.fin (Int.ofNat e.length) }) ∧
    ((∀ r ∈ parseCustomRanges rangeInputs, ∃ toks : List Token,
        (∀ t ∈ toks, t.wellFormed ∧ t.safe ∧ t.cost ≤ fuel) ∧
        (split ',' r.data).map trim = toks.map Token.text) →
      ∃ (expansions : List (List Int)) (run : Run) (results : List SplitResult),
        List.Forall₂ (fun r e => expandRange totalPages fuel r = some e)
          (parseCustomRanges rangeInputs) expansions ∧
        splitByCustomRanges totalPages fuel rangeInputs = some run ∧
        run.outcome = Outcome.returned results ∧
        results.length = (parseCustomRanges rangeInputs).length ∧
        ∀ i e, expansions.get? i = some e →
          results.get? i = some { name := "range_" ++ toString (i + 1) ++ ".pdf", data := e,
                                  pageCount := JSNumber.fin (Int.ofNat e.length) }) ∧
    (∀ run, splitByCustomRanges totalPages fuel rangeInputs = some run →
      ∃ expansions : List (List Int),
        List.Forall₂ (fun r e => expandRange totalPages fuel r = some e)
          (parseCustomRanges rangeInputs) expansions) := by
  have hlen : ¬ (parseCustomRanges rangeInputs).length = 0 := by
    rw [List.length_eq_zero]
    exact hne
  have hmain : ∀ expansions : List (List Int),
      List.Forall₂ (fun r e => expandRange totalPages fuel r = some e)
        (parseCustomRanges rangeInputs) expansions →
      ∃ run results, splitByCustomRanges totalPages fuel rangeInputs = some run ∧
        run.outcome = Outcome.returned results ∧
        results.length = (parseCustomRanges rangeInputs).length ∧
        ∀ i e, expansions.get? i = some e →
          results.get? i = some { name := "range_" ++ toString (i + 1) ++ ".pdf", data := e,
                                  pageCount := JSNumber.fin (Int.ofNat e.length) } := by
    intro expansions hexp
    have hrun := customLoop_spec hsafe fuel (parseCustomRanges rangeInputs).length
      (parseCustomRanges rangeInputs) expansions 0 [] [] hexp
    rw [List.nil_append, List.nil_append] at hrun
    refine ⟨{ progress := (List.range' 0 (parseCustomRanges rangeInputs).length).map
                (fun j : Nat => ((j : ℚ) / ((parseCustomRanges rangeInputs).length : ℚ)) * 100),
              outcome := Outcome.returned ((expansions.enumFrom 0).map (fun p =>
                { name := "range_" ++ toString (p.1 + 1) ++ ".pdf", data := p.2,
                  pageCount := JSNumber.fin (Int.ofNat p.2.length) })) },
      (expansions.enumFrom 0).map (fun p =>
        { name := "range_" ++ toString (p.1 + 1) ++ ".pdf", data := p.2,
          pageCount := JSNumber.fin (Int.ofNat p.2.length) }), ?_, ?_, ?_, ?_⟩
    · simp only [splitByCustomRanges, hlen, if_false]
      exact hrun
    · rfl
    · simp [hexp.length_eq]
    · intro i e hie
      rw [List.get?_eq_getElem?] at hie
      rw [List.get?_eq_getElem?, List.getElem?_map, List.getElem?_enumFrom, hie]
      simp
  refine ⟨hmain, ?_, ?_⟩
  · intro htoks
    obtain ⟨expansions, hexp⟩ := expansions_exist totalPages fuel (parseCustomRanges rangeInputs)
      (fun r hr => by
        obtain ⟨toks, hall, hmap⟩ := htoks r hr
        exact expandRange_isSome totalPages fuel r toks hall hmap)
    obtain ⟨run, results, h1, h2, h3, h4⟩ := hmain expansions hexp
    exact ⟨expansions, run, results, hexp, h1, h2, h3, h4⟩
  · intro run hrun
    simp only [splitByCustomRanges, hlen, if_false] at hrun
    exact customLoop_expansions hsafe fuel _ _ _ _ _ run hrun

/-- An instance of `splitByCustomRanges_results`: the inputs `1-2` and `9-10`
on a 5-page document give two results, with index lists `[0, 1]` and `[]`. -/
theorem splitByCustomRanges_results_witness :
    splitByCustomRanges 5 2 ["1-2", "9-10"] =
        some { progress := [0, 50],
               outcome := Outcome.returned
                [{ name := "range_1.pdf", data := [0, 1], pageCount := JSNumber.fin 2 },
                 { name := "range_2.pdf", data := [], pageCount := JSNumber.fin 0 }] } ∧
      ∃ run results, splitByCustomRanges 5 2 ["1-2", "9-10"] = some run ∧
        run.outcome = Outcome.returned results ∧
        results.length = (parseCustomRanges ["1-2", "9-10"]).length ∧
        ∀ i e, [[0, 1], []].get? i = some e →
          results.get? i = some { name := "range_" ++ toString (i + 1) ++ ".pdf", data := e,
                                  pageCount := JSNumber.fin (Int.ofNat e.length) } :=
  ⟨by decide!,
    (splitByCustomRanges_results 5 2 ["1-2", "9-10"] (by decide) (by decide)).1 [[0, 1], []]
      (by decide)⟩

/-! ## Spans that reach `2^53` -/

/-- From a loop variable of at most `2^53`, with the end of the span at
`2^53` or beyond, the span loop never ends: the variable climbs to `2^53`
and stays there. -/
theorem spanLoop_never (totalPages : Nat) {e : JSNumber}
    (he : JSNumber.le (JSNumber.fin (2 ^ 53)) e = true) :
    ∀ (fuel x : Nat) (pages : List Int), x ≤ 2 ^ 53 →
      spanLoop totalPages e fuel (JSNumber.fin x) pages = none := by
  have hle : ∀ x : Nat, x ≤ 2 ^ 53 → JSNumber.le (JSNumber.fin x) e = true := by
    intro x hx
    apply le_trans_num _ he
    simp only [JSNumber.le, decide_eq_true_eq]
    exact_mod_cast hx
  have hstep : ∀ x : Nat, x ≤ 2 ^ 53 → ∃ y : Nat, y ≤ 2 ^ 53 ∧
      JSNumber.add (JSNumber.fin x) (JSNumber.fin 1) = JSNumber.fin y := by
    intro x hx
    by_cases hlt : x < 2 ^ 53
    · refine ⟨x + 1, by omega, ?_⟩
      simp only [JSNumber.add]
      rw [toNumber_of_le (by omega)]
      simp
    · have hx53 : x = 2 ^ 53 := by omega
      refine ⟨2 ^ 53, le_refl _, ?_⟩
      rw [hx53]
      have hcast : (((2 ^ 53 : Nat) : Int)) = 2 ^ 53 := by norm_num
      rw [hcast]
      exact add_one_pow53
  intro fuel
  induction fuel with
  | zero =>
    intro x pages hx
    simp only [spanLoop, hle x hx, if_true]
  | succ fuel ih =>
    intro x pages hx
    obtain ⟨y, hy, hadd⟩ := hstep x hx
    simp only [spanLoop, hle x hx, if_true, hadd]
    exact ih y _ hy

/-- The range parser never returns on an expression that is one span whose
start reads as a Number of at most `2^53` and whose end is `2^53` or more. -/
theorem expandRange_hang (totalPages fuel : Nat) (rangeStr : String) {a b : List Char}
    (ha : isDecimal a) (hb : isDecimal b) (hs : rangeStr.data = a ++ '-' :: b) (x : Nat)
    (hx : toNumber (decimalValue a) = JSNumber.fin x) (hx53 : x ≤ 2 ^ 53)
    (hb53 : 2 ^ 53 ≤ decimalValue b) :
    expandRange totalPages fuel rangeStr = none := by
  have hwf : (Token.span a b).wellFormed := ⟨ha, hb⟩
  have hsplit : split ',' (a ++ '-' :: b) = [a ++ '-' :: b] := split_comma_text hwf
  have htrim : trim (a ++ '-' :: b) = a ++ '-' :: b := trim_text hwf
  have hend : JSNumber.le (JSNumber.fin (2 ^ 53)) (toNumber (decimalValue b)) = true := by
    have hge : (2 : Int) ^ 53 ≤ (decimalValue b : Int) := by exact_mod_cast hb53
    rcases toNumber_of_ge hge with h | ⟨w, hw, h⟩
    · rw [h]
      rfl
    · rw [h]
      simpa [JSNumber.le] using hw
  have hpart := expandPart_span totalPages fuel ha hb htrim []
  rw [hx, spanLoop_never totalPages hend fuel x [] hx53] at hpart
  unfold expandRange
  rw [hs, hsplit]
  simp only [expandParts]
  rw [hpart]

/-- C4 (the code departs from it). On the reversed span
`9007199254740993-9007199254740992` the range parser never returns, whatever
the page count: `parseInt` rounds the start to `2^53`, which is the end, so
the loop runs, and `i++` leaves the loop variable at `2^53`.  It does not
return on the span `1-99999999999999999` either, whose end is beyond `2^53`.
So on these well-formed expressions there is no result for an index to
belong to, and the reversed span does not contribute "no pages". -/
theorem expandRange_wide_span_never_returns (totalPages fuel : Nat) :
    expandRange totalPages fuel "9007199254740993-9007199254740992" = none ∧
      expandRange totalPages fuel "1-99999999999999999" = none := by
  constructor
  · have ha : isDecimal "9007199254740993".data := ⟨by decide, by decide⟩
    have hb : isDecimal "9007199254740992".data := ⟨by decide, by decide⟩
    have hva : decimalValue "9007199254740993".data = 2 ^ 53 + 1 := by decide
    have hvb : decimalValue "9007199254740992".data = 2 ^ 53 := by decide
    have hx : toNumber (decimalValue "9007199254740993".data) =
        JSNumber.fin ((2 ^ 53 : Nat) : Int) := by
      have hlim := pow53_lt_limit
      have hnot : ¬ 1 <<< 1024 ≤ 2 ^ 53 := by omega
      have hpos : ¬ (((2 ^ 53 + 1 : Nat) : Int) < 0) := by omega
      rw [hva]
      simp only [toNumber, Int.natAbs_ofNat, roundNat_pow53_succ, hnot, hpos, if_false]
    exact expandRange_hang totalPages fuel _ ha hb (by decide) (2 ^ 53) hx (le_refl _)
      (by rw [hvb])
  · have ha : isDecimal "1".data := ⟨by decide, by decide⟩
    have hb : isDecimal "99999999999999999".data := ⟨by decide, by decide⟩
    have hva : decimalValue "1".data = 1 := by decide
    have hvb : 2 ^ 53 ≤ decimalValue "99999999999999999".data := by decide
    have hx : toNumber (decimalValue "1".data) = JSNumber.fin ((1 : Nat) : Int) := by
      rw [hva]
      exact toNumber_of_lt (by decide)
    exact expandRange_hang totalPages fuel _ ha hb (by decide) 1 hx (by norm_num) hvb

/-- C11 (the code departs from it). The inputs `1-2` and
`9007199254740992-9007199254740994` are two non-empty expressions, of which
the first yields the pages with indices 0 and 1 of a 5-page document; yet
`splitByCustomRanges` returns no result on them, whatever the fuel: the
range parser never returns on the second expression. -/
theorem splitByCustomRanges_never_returns (fuel : Nat) :
    parseCustomRanges ["1-2", "9007199254740992-9007199254740994"] =
        ["1-2", "9007199254740992-9007199254740994"] ∧
      expandRange 5 2 "1-2" = some [0, 1] ∧
      splitByCustomRanges 5 fuel ["1-2", "9007199254740992-9007199254740994"] = none := by
  have hp : parseCustomRanges ["1-2", "9007199254740992-9007199254740994"] =
      ["1-2", "9007199254740992-9007199254740994"] := by decide
  have hsafe : 5 ≤ maxSafeInteger := by decide
  have hva : decimalValue "9007199254740992".data = 2 ^ 53 := by decide
  have hvb : 2 ^ 53 ≤ decimalValue "9007199254740994".data := by decide
  have hx : toNumber (decimalValue "9007199254740992".data) =
      JSNumber.fin ((2 ^ 53 : Nat) : Int) := by
    rw [hva]
    exact toNumber_of_le (by simp)
  have ha : isDecimal "9007199254740992".data := ⟨by decide, by decide⟩
  have hb : isDecimal "9007199254740994".data := ⟨by decide, by decide⟩
  have hhang : expandRange 5 fuel "9007199254740992-9007199254740994" = none :=
    expandRange_hang 5 fuel _ ha hb (by decide) (2 ^ 53) hx (le_refl _) hvb
  refine ⟨hp, by decide, ?_⟩
  have hloop : splitByCustomRanges 5 fuel ["1-2", "9007199254740992-9007199254740994"] =
      customLoop 5 fuel 2 0 ["1-2", "9007199254740992-9007199254740994"] [] [] := by
    unfold splitByCustomRanges
    rw [hp]
    rfl
  rw [hloop, customLoop]
  cases hfirst : expandRange 5 fuel "1-2" with
  | none => rfl
  | some pageIndices =>
    have hcopy := copyPages_ok 5 pageIndices (fun k hk => expandRange_bounds hsafe hfirst hk)
    simp only [hcopy, customLoop, hhang]

end PDFCutter
